import Mathlib

/-!
Verification of the marksheet extraction pipeline
(`phase1_extract.py`, `phase2_process.py`).

Strings are modelled as `List Char`.  Each definition below is a direct
shallow embedding of the corresponding Python function; the source names
are kept where Lean allows it.
-/

namespace Marksheet

/-- A single grid cell (a Python string). -/
abbrev Cell := List Char
/-- One row of the raw CSV grid. -/
abbrev Row := List Cell
/-- The whole raw grid. -/
abbrev Grid := List Row

/-! ## Character classes (ASCII model of Python predicates and regexes) -/

/-- Python whitespace (the ASCII part of `str.strip` and regex backslash-s). -/
def isSpaceCh (c : Char) : Bool :=
  c == ' ' || c == '\t' || c == '\n' || c == '\r' || c == '\x0b' || c == '\x0c'

/-- ASCII decimal digit, the model of `str.isdigit` and regex backslash-d. -/
def isDigitCh (c : Char) : Bool := '0' ≤ c && c ≤ '9'

/-- Uppercase ASCII letter. -/
def isUpperCh (c : Char) : Bool := 'A' ≤ c && c ≤ 'Z'

/-- Lowercase ASCII letter. -/
def isLowerCh (c : Char) : Bool := 'a' ≤ c && c ≤ 'z'

/-- The character class `[A-Z0-9]` used by both phases. -/
def isAlnumCh (c : Char) : Bool := isUpperCh c || isDigitCh c

/-- Printable ASCII, the class `[\x20-\x7E]` of the FreeText branch. -/
def isPrintCh (c : Char) : Bool := ' ' ≤ c && c ≤ '~'

/-- ASCII model of Python `str.upper` applied characterwise. -/
def upC (c : Char) : Char :=
  if isLowerCh c then Char.ofNat (c.toNat - 32) else c

/-- Characters that can appear in the output of the Mark-category
transform: digits, the grade letters other than `B` (always rewritten to
`8`), the absent-marker letters, and their lowercase forms. -/
def marksOutChar (c : Char) : Prop :=
  (48 ≤ c.toNat ∧ c.toNat ≤ 57) ∨
  (65 ≤ c.toNat ∧ c.toNat ≤ 70 ∧ c.toNat ≠ 66) ∨ c.toNat = 80 ∨
  (97 ≤ c.toNat ∧ c.toNat ≤ 102) ∨ c.toNat = 112

instance (c : Char) : Decidable (marksOutChar c) := by
  unfold marksOutChar
  infer_instance

/-- Python `str.replace(a, b)` for one-character patterns. -/
def replaceCh (a b : Char) (l : List Char) : List Char :=
  l.map fun c => if c == a then b else c

/-- `re.sub(r'\s+', '', s)`: delete every whitespace character. -/
def removeWs (l : List Char) : List Char := l.filter fun c => !isSpaceCh c

/-- Python `str.strip()`: drop whitespace from both ends. -/
def stripList (l : List Char) : List Char :=
  ((l.dropWhile isSpaceCh).reverse.dropWhile isSpaceCh).reverse

/-- Run-tracking core of `collapseWs`: `inRun` records whether the
previous character was whitespace (whose run already emitted one blank). -/
def collapseAux : Bool → List Char → List Char
  | _, [] => []
  | inRun, c :: cs =>
    if isSpaceCh c then
      if inRun then collapseAux true cs else ' ' :: collapseAux true cs
    else c :: collapseAux false cs

/-- `re.sub(r'\s+', ' ', s)`: squeeze each whitespace run to one blank. -/
def collapseWs (l : List Char) : List Char := collapseAux false l

/-! ## Phase 1: `phase1_extract.py` -/

/-- The unconditional `always_fixes` substitution table of
`correct_text_context_aware` (euro/copyright glyphs to `C`, curly quotes
to straight quotes), applied characterwise. -/
def alwaysFix (c : Char) : Char :=
  if c == '€' then 'C'
  else if c == 'Ⓒ' then 'C'
  else if c == '©' then 'C'
  else if c == '‘' then '\''
  else if c == '’' then '\''
  else if c == '“' then '"'
  else if c == '”' then '"'
  else c

/-- The trial substitution of `is_likely_usn`: `O→0`, `I→1`, `B→8`. -/
def trialSubst (l : List Char) : List Char :=
  replaceCh 'B' '8' (replaceCh 'I' '1' (replaceCh 'O' '0' l))

/-- The anchored regex `^1[BM][A-Z0-9]{7,9}$` of `is_likely_usn`. -/
def usnRegexMatch : List Char → Bool
  | c0 :: c1 :: rest =>
    c0 == '1' && (c1 == 'B' || c1 == 'M') && rest.all isAlnumCh &&
      decide (7 ≤ rest.length) && decide (rest.length ≤ 9)
  | _ => false

/-- `is_likely_usn`: uppercase and strip, apply the trial substitution,
test against the USN pattern. -/
def is_likely_usn (s : List Char) : Bool :=
  usnRegexMatch (trialSubst (stripList (s.map upC)))

/-- The four `marks_patterns` of `is_likely_marks`, tested against the
stripped, uppercased text: all digits; a single `[A-FP]` letter; the
literal `AB`; digits, optional whitespace, optional digits. -/
def marksPatMatch (u : List Char) : Bool :=
  (!u.isEmpty && u.all isDigitCh) ||
  (match u with
   | [c] => ('A' ≤ c && c ≤ 'F') || c == 'P'
   | _ => false) ||
  (u == ['A', 'B']) ||
  (let p := u.span isDigitCh
   let q := p.2.span isSpaceCh
   let r := q.2.span isDigitCh
   !p.1.isEmpty && r.2.isEmpty)

/-- `is_likely_marks`. -/
def is_likely_marks (s : List Char) : Bool :=
  marksPatMatch ((stripList s).map upC)

/-- The `usn_corrections` table applied in source order:
`O→0`, `I→1`, `l→1`, `B→8`, `Z→2`, `S→5`. -/
def usnSubst (l : List Char) : List Char :=
  replaceCh 'S' '5' (replaceCh 'Z' '2' (replaceCh 'B' '8'
    (replaceCh 'l' '1' (replaceCh 'I' '1' (replaceCh 'O' '0' l)))))

/-- The `marks_corrections` table applied in source order:
`O→0`, `I→1`, `l→1`, `B→8`, `S→5` (no `Z` rule). -/
def marksSubst (l : List Char) : List Char :=
  replaceCh 'S' '5' (replaceCh 'B' '8'
    (replaceCh 'l' '1' (replaceCh 'I' '1' (replaceCh 'O' '0' l))))

/-- Head match of the pattern `1BM2(I|1)CS` at the start of `l`. -/
def is1BM (l : List Char) : Bool :=
  l.take 4 == ['1', 'B', 'M', '2'] &&
    (l.getD 4 ' ' == 'I' || l.getD 4 ' ' == '1') &&
    l.getD 5 ' ' == 'C' && l.getD 6 ' ' == 'S' && decide (7 ≤ l.length)

/-- `re.sub(r'1BM2(I|1)CS', '1BM21CS', s)`: scan left to right, replace
each non-overlapping occurrence (a match consumes seven characters; a
list shorter than seven characters cannot match). -/
def fix1bm : List Char → List Char
  | c1 :: c2 :: c3 :: c4 :: c5 :: c6 :: c7 :: rest =>
    if is1BM (c1 :: c2 :: c3 :: c4 :: c5 :: c6 :: c7 :: rest) then
      '1' :: 'B' :: 'M' :: '2' :: '1' :: 'C' :: 'S' :: fix1bm rest
    else c1 :: fix1bm (c2 :: c3 :: c4 :: c5 :: c6 :: c7 :: rest)
  | c :: cs => c :: fix1bm cs
  | [] => []

/-- The Identifier-category transform of `correct_text_context_aware`:
substitutions, transposition repair, keep only `[A-Z0-9]`, uppercase. -/
def usnBranch (t : List Char) : List Char :=
  ((fix1bm (usnSubst t)).filter isAlnumCh).map upC

/-- The Mark-category transform: substitutions, delete whitespace. -/
def marksBranch (t : List Char) : List Char :=
  removeWs (marksSubst t)

/-- The FreeText transform: non-printable-ASCII to blank, squeeze
whitespace, strip. -/
def freeTextBranch (t : List Char) : List Char :=
  stripList (collapseWs (t.map fun c => if isPrintCh c then c else ' '))

/-- Classification and category transform on the stripped, always-fixed
text. -/
def correctCore (t : List Char) : List Char :=
  if is_likely_usn t then usnBranch t
  else if is_likely_marks t then marksBranch t
  else freeTextBranch t

/-- `correct_text_context_aware` on a string argument. -/
def correct (s : List Char) : List Char :=
  let t0 := stripList s
  if t0.isEmpty then [] else correctCore (t0.map alwaysFix)

/-- `correct_text_context_aware` on an arbitrary cell value: a non-string
(absent) value is returned unchanged by the `isinstance` guard. -/
def correctCell : Option (List Char) → Option (List Char)
  | none => none
  | some s => some (correct s)

/-! ## Phase 2: `phase2_process.py` -/

/-- `clean_usn`: uppercase, strip, `O→0`, `I→1`, `l→1`, keep `[A-Z0-9]`. -/
def clean_usn (u : List Char) : List Char :=
  let u1 := stripList (u.map upC)
  if u1.isEmpty then []
  else (replaceCh 'l' '1' (replaceCh 'I' '1' (replaceCh 'O' '0' u1))).filter isAlnumCh

/-- The character class kept by `clean_name`:
`[A-Za-z\s\-'\.]`. -/
def isNameCh (c : Char) : Bool :=
  isUpperCh c || isLowerCh c || isSpaceCh c || c == '-' || c == '\'' || c == '.'

/-- `clean_name`: strip, replace other characters by blanks, squeeze
whitespace, strip. -/
def clean_name (n : List Char) : List Char :=
  stripList (collapseWs ((stripList n).map fun c => if isNameCh c then c else ' '))

/-- `str.isdigit()` of a cell: non-empty and all digits. -/
def isDigitStrB (c : Cell) : Bool := !c.isEmpty && c.all isDigitCh

/-- Acceptance test of `extract_subject_codes`: non-empty (checked by the
caller), starts with `22`, length at least 8, not purely numeric. -/
def acceptsCodeB (c : Cell) : Bool :=
  c.take 2 == ['2', '2'] && decide (8 ≤ c.length) && !isDigitStrB c

/-- Head match of the literal `22CST` at the start of `l`. -/
def is22CST (l : List Char) : Bool := l.take 5 == ['2', '2', 'C', 'S', 'T']

/-- `re.sub(r'22CST', '22CS7', s)`: scan left to right, replace each
non-overlapping occurrence (a match consumes five characters). -/
def sub22CST : List Char → List Char
  | c1 :: c2 :: c3 :: c4 :: c5 :: rest =>
    if is22CST (c1 :: c2 :: c3 :: c4 :: c5 :: rest) then
      '2' :: '2' :: 'C' :: 'S' :: '7' :: sub22CST rest
    else c1 :: sub22CST (c2 :: c3 :: c4 :: c5 :: rest)
  | c :: cs => c :: sub22CST cs
  | [] => []

/-- Head match of the literal `22MEZO` at the start of `l`. -/
def is22MEZO (l : List Char) : Bool := l.take 6 == ['2', '2', 'M', 'E', 'Z', 'O']

/-- `re.sub(r'22MEZO', '22ME2O', s)`: scan left to right, replace each
non-overlapping occurrence (a match consumes six characters). -/
def sub22MEZO : List Char → List Char
  | c1 :: c2 :: c3 :: c4 :: c5 :: c6 :: rest =>
    if is22MEZO (c1 :: c2 :: c3 :: c4 :: c5 :: c6 :: rest) then
      '2' :: '2' :: 'M' :: 'E' :: '2' :: 'O' :: sub22MEZO rest
    else c1 :: sub22MEZO (c2 :: c3 :: c4 :: c5 :: c6 :: rest)
  | c :: cs => c :: sub22MEZO cs
  | [] => []

/-- Normalisation of an accepted header cell: uppercase, the two literal
substring repairs, delete whitespace. -/
def normCode (c : Cell) : Cell :=
  removeWs (sub22MEZO (sub22CST (c.map upC)))

/-- The scanning loop of `extract_subject_codes`.  `acc` holds the codes
accepted so far, most recent first.  An empty or rejected cell advances by
one column; an accepted cell is appended unless it equals the immediately
preceding accepted code, and advances by four columns. -/
def scanCodes : List Cell → List Cell → List Cell
  | [], acc => acc.reverse
  | cell :: rest, acc =>
    let c := stripList cell
    if c.isEmpty then scanCodes rest acc
    else if acceptsCodeB c then
      let code := normCode c
      let acc' := if acc.head? = some code then acc else code :: acc
      match rest with
      | _ :: _ :: _ :: rest3 => scanCodes rest3 acc'
      | _ => acc'.reverse
    else scanCodes rest acc

/-- `extract_subject_codes`: scan the header row after the three leading
identity columns. -/
def extract_subject_codes (header : Row) : List Cell :=
  scanCodes (header.drop 3) []

/-- The fixed `alias_map` of `get_subject_aliases`. -/
def aliasTbl (c : Cell) : Option Cell :=
  if c = "22CS7PCCCT".data then some "CC".data
  else if c = "22CS7PENLP".data then some "NLP".data
  else if c = "22CS7PERPA".data then some "RPA".data
  else if c = "22CS7PENDL".data then some "DL".data
  else if c = "22CS7PEHCI".data then some "HCI".data
  else if c = "22CS7HSCFI".data then some "CF".data
  else if c = "22CS7NCMCI".data then some "MOOC".data
  else if c = "22ME2OESSE".data then some "SE".data
  else none

/-- `get_subject_aliases` for one code: the table entry, or the first four
characters of the code as fallback. -/
def aliasFor (c : Cell) : Cell := (aliasTbl c).getD (c.take 4)

/-- Key suffixes of the four score components. -/
def kCIE : Cell := ['_', 'C', 'I', 'E']
def kSEE : Cell := ['_', 'S', 'E', 'E']
def kTOT : Cell := ['_', 'T', 'O', 'T', 'A', 'L']
def kGRD : Cell := ['_', 'G', 'R', 'A', 'D', 'E']

/-- The four component-key suffixes, in write order. -/
def sfxList : List Cell := [kCIE, kSEE, kTOT, kGRD]

/-- The four keyed writes of one present subject block rooted at column
`i`, under stem `c` (a code or an alias). -/
def blockKeys (c : Cell) (row : Row) (i : Nat) : List (Cell × Cell) :=
  [(c ++ kCIE, stripList (row.getD i [])),
   (c ++ kSEE, stripList (row.getD (i + 1) [])),
   (c ++ kTOT, stripList (row.getD (i + 2) [])),
   (c ++ kGRD, stripList (row.getD (i + 3) []))]

/-- The four empty-string writes of a subject block the row is too short
to contain. -/
def emptyBlockKeys (c : Cell) : List (Cell × Cell) :=
  [(c ++ kCIE, []), (c ++ kSEE, []), (c ++ kTOT, []), (c ++ kGRD, [])]

/-- The score-field construction loop of `process_csv_to_dataframe`:
for each subject code, if the row still holds a full four-cell block,
write the four components under the code key and (when the alias is
non-empty) the alias key and advance four columns; otherwise write four
empty strings under the code key only. -/
def buildScores : List Cell → Nat → Row → List (Cell × Cell)
  | [], _, _ => []
  | c :: cs, i, row =>
    if i + 3 < row.length then
      blockKeys c row i ++
        (if (aliasFor c).isEmpty then [] else blockKeys (aliasFor c) row i) ++
        buildScores cs (i + 4) row
    else
      emptyBlockKeys c ++ buildScores cs i row

/-- Python-dict lookup over the ordered write list: the LAST write of a
key wins. -/
def lookupLast (k : Cell) : List (Cell × Cell) → Option Cell
  | [] => none
  | p :: rest =>
    match lookupLast k rest with
    | some v => some v
    | none => if p.1 = k then some p.2 else none

/-- One structured student record.  `sl` is the `Sl_No` column (rewritten
by the final renumbering pass); `src` records the source ordinal
determined at acceptance time and is never rewritten. -/
structure SRec where
  sl : Nat
  src : Nat
  usn : Cell
  name : Cell
  scores : List (Cell × Cell)
deriving Repr, DecidableEq

/-- Row skip test: empty row, or first three cells all blank. -/
def skipRowB (row : Row) : Bool :=
  row.isEmpty || (row.take 3).all fun c => (stripList c).isEmpty

/-- The `is_valid` acceptance test: strict identifier check (non-empty,
length at least 9, starts `1BM`) or identifier and name both non-empty. -/
def validRowB (row : Row) : Bool :=
  let usn := clean_usn (row.getD 1 [])
  let name := clean_name (row.getD 2 [])
  (!usn.isEmpty && decide (9 ≤ usn.length) && usn.take 3 == ['1', 'B', 'M']) ||
    (!usn.isEmpty && !name.isEmpty)

/-- `int(s)` on an all-digit string. -/
def digitsToNat (l : List Char) : Nat :=
  l.foldl (fun n c => 10 * n + (c.toNat - 48)) 0

/-- The ordinal of an accepted row: column 0 if it strips to a clean
integer, otherwise one past the number of records accepted so far. -/
def slOf (row : Row) (k : Nat) : Nat :=
  let st := stripList (row.getD 0 [])
  if !st.isEmpty && st.all isDigitCh then digitsToNat st else k + 1

/-- Build one accepted record. -/
def mkRec (codes : List Cell) (row : Row) (k : Nat) : SRec :=
  let n := slOf row k
  { sl := n, src := n
    usn := clean_usn (row.getD 1 [])
    name := clean_name (row.getD 2 [])
    scores := buildScores codes 3 row }

/-- The student extraction loop over the data rows (`k` counts records
accepted so far). -/
def buildRecords (codes : List Cell) : List Row → Nat → List SRec
  | [], _ => []
  | row :: rest, k =>
    if skipRowB row then buildRecords codes rest k
    else if validRowB row then mkRec codes row k :: buildRecords codes rest (k + 1)
    else buildRecords codes rest k

/-- Ordered insertion by `Sl_No` (ascending). -/
def insRec (r : SRec) : List SRec → List SRec
  | [] => [r]
  | x :: xs => if r.sl ≤ x.sl then r :: x :: xs else x :: insRec r xs

/-- `df.sort_values('Sl_No')`. -/
def sortRecs : List SRec → List SRec
  | [] => []
  | r :: rs => insRec r (sortRecs rs)

/-- `df['Sl_No'] = range(1, len(df) + 1)`. -/
def renumberFrom : Nat → List SRec → List SRec
  | _, [] => []
  | n, r :: rs => { r with sl := n } :: renumberFrom (n + 1) rs

/-- The decode failure taxonomy of `process_csv_to_dataframe`. -/
inductive DErr where
  | gridTooShort
  | noSubjectCodesFound
  | noStudentRowsFound
deriving Repr, DecidableEq

/-- `process_csv_to_dataframe`: header scan on row 1, student extraction
from row 3, sort by ordinal and renumber.  A grid without the documented
four-row layout fails while echoing its structure; an empty code sequence
and an empty record sequence fail with their own distinct conditions. -/
def processCsv (g : Grid) : Except DErr (List SRec × List Cell) :=
  if g.length < 4 then .error .gridTooShort
  else if extract_subject_codes (g.getD 1 []) = [] then .error .noSubjectCodesFound
  else if buildRecords (extract_subject_codes (g.getD 1 [])) (g.drop 3) 0 = [] then
    .error .noStudentRowsFound
  else
    .ok (renumberFrom 1 (sortRecs
          (buildRecords (extract_subject_codes (g.getD 1 [])) (g.drop 3) 0)),
         extract_subject_codes (g.getD 1 []))

/-! ## Spec-side definitions used for comparison -/

/-- Modelled from the spec wording, for comparison with the code: the
identifier pattern read as "a leading digit, one of two fixed institution
letters, then 7 to 9 further alphanumeric characters". -/
def specIdLeadingDigit (u : List Char) : Bool :=
  match u with
  | c0 :: c1 :: rest =>
    isDigitCh c0 && (c1 == 'B' || c1 == 'M') && rest.all isAlnumCh &&
      decide (7 ≤ rest.length) && decide (rest.length ≤ 9)
  | _ => false

/-- The amended identifier pattern: the literal leading digit `1`, one of
the institution letters `B` or `M`, then 7 to 9 further alphanumeric
characters (total length 9 to 11). -/
def specIdLiteralOne (u : List Char) : Bool :=
  (u.take 2 == ['1', 'B'] || u.take 2 == ['1', 'M']) && (u.drop 2).all isAlnumCh &&
    decide (9 ≤ u.length) && decide (u.length ≤ 11)

/-- A record with its renumbered ordinal forgotten: the source ordinal,
identifier, name and score fields. -/
def stripSl (r : SRec) : Nat × Cell × Cell × List (Cell × Cell) :=
  (r.src, r.usn, r.name, r.scores)

/-! ## Concrete witness and counterexample data -/

/-- A grid with one discovered subject and one accepted data row that is
too short to hold the subject's four-cell score block. -/
def c1grid : Grid :=
  [[], [[], [], [], "22AAAAAA".data], [], ["1".data, "1BM21CS001".data, "NN".data]]

/-- The single record `processCsv` emits for `c1grid`. -/
def c1rec : SRec :=
  { sl := 1, src := 1, usn := "1BM21CS001".data, name := "NN".data
    scores := [("22AAAAAA".data ++ kCIE, []), ("22AAAAAA".data ++ kSEE, []),
               ("22AAAAAA".data ++ kTOT, []), ("22AAAAAA".data ++ kGRD, [])] }

/-- A grid with one subject and two accepted rows whose source ordinals
are `7` and a non-numeric cell (which falls back to position 2). -/
def c8grid : Grid :=
  [[], [[], [], [], "22BBBBBB".data], [],
   ["7".data, "1BM21CS001".data, "AA".data],
   ["x".data, "1BM21CS002".data, "BB".data]]

/-- The decoded output of `c8grid`. -/
def c8out : List SRec × List Cell := (processCsv c8grid).toOption.getD ([], [])

/-- A four-row grid whose header row carries no subject codes. -/
def c9gridA : Grid := [[], [], [], []]

/-- A four-row grid with one subject code but no acceptable data row. -/
def c9gridB : Grid := [[], [[], [], [], "22BBBBBB".data], [], []]

/-- Two subject codes outside the alias table sharing their first four
characters, so both get the fallback alias `22XX`. -/
def c10c1 : Cell := "22XXAAAA".data

/-- See `c10c1`. -/
def c10c2 : Cell := "22XXBBBB".data

/-- A data row long enough to hold both subjects' score blocks. -/
def c10row : Row :=
  ["1".data, "1BM21CS001".data, "NM".data,
   "a1".data, "a2".data, "a3".data, "a4".data,
   "b1".data, "b2".data, "b3".data, "b4".data]

/-! ## Character-level lemmas -/

theorem toNat_ofNat_valid (n : Nat) (h : n.isValidChar) : (Char.ofNat n).toNat = n := by
  unfold Char.ofNat
  rw [dif_pos h]
  unfold Char.ofNatAux Char.toNat
  show (UInt32.mk (BitVec.ofNatLt n _)).toNat = n
  rfl

theorem charLe_iff (a b : Char) : (a ≤ b) ↔ (a.toNat ≤ b.toNat) := by
  rw [Char.le_def, UInt32.le_def, BitVec.le_def]; rfl

theorem charEq_iff (a b : Char) : (a = b) ↔ (a.toNat = b.toNat) := by
  constructor
  · intro h; rw [h]
  · intro h
    exact Char.eq_of_val_eq (by
      apply UInt32.eq_of_toBitVec_eq
      apply BitVec.eq_of_toNat_eq
      exact h)

theorem isSpace_iff (c : Char) :
    isSpaceCh c = true ↔
      (c.toNat = 32 ∨ c.toNat = 9 ∨ c.toNat = 10 ∨ c.toNat = 13 ∨
       c.toNat = 11 ∨ c.toNat = 12) := by
  simp only [isSpaceCh, Bool.or_eq_true, beq_iff_eq, charEq_iff]
  rw [(by decide : (' ').toNat = 32), (by decide : ('\t').toNat = 9),
      (by decide : ('\n').toNat = 10), (by decide : ('\r').toNat = 13),
      (by decide : ('\x0b').toNat = 11), (by decide : ('\x0c').toNat = 12)]
  tauto

theorem isDigit_iff (c : Char) :
    isDigitCh c = true ↔ 48 ≤ c.toNat ∧ c.toNat ≤ 57 := by
  simp only [isDigitCh, Bool.and_eq_true, decide_eq_true_eq, charLe_iff]
  rw [(by decide : ('0').toNat = 48), (by decide : ('9').toNat = 57)]

theorem isUpper_iff (c : Char) :
    isUpperCh c = true ↔ 65 ≤ c.toNat ∧ c.toNat ≤ 90 := by
  simp only [isUpperCh, Bool.and_eq_true, decide_eq_true_eq, charLe_iff]
  rw [(by decide : ('A').toNat = 65), (by decide : ('Z').toNat = 90)]

theorem isLower_iff (c : Char) :
    isLowerCh c = true ↔ 97 ≤ c.toNat ∧ c.toNat ≤ 122 := by
  simp only [isLowerCh, Bool.and_eq_true, decide_eq_true_eq, charLe_iff]
  rw [(by decide : ('a').toNat = 97), (by decide : ('z').toNat = 122)]

theorem isAlnum_iff (c : Char) :
    isAlnumCh c = true ↔
      (65 ≤ c.toNat ∧ c.toNat ≤ 90) ∨ (48 ≤ c.toNat ∧ c.toNat ≤ 57) := by
  simp only [isAlnumCh, Bool.or_eq_true, isUpper_iff, isDigit_iff]

theorem isPrint_iff (c : Char) :
    isPrintCh c = true ↔ 32 ≤ c.toNat ∧ c.toNat ≤ 126 := by
  simp only [isPrintCh, Bool.and_eq_true, decide_eq_true_eq, charLe_iff]
  rw [(by decide : (' ').toNat = 32), (by decide : ('~').toNat = 126)]

theorem upC_eq_self {c : Char} (h : isLowerCh c = false) : upC c = c := by
  simp [upC, h]

theorem toNat_upC (c : Char) :
    (upC c).toNat = if isLowerCh c = true then c.toNat - 32 else c.toNat := by
  unfold upC
  by_cases h : isLowerCh c = true
  · rw [if_pos h, if_pos h, toNat_ofNat_valid]
    have := (isLower_iff c).mp h
    exact Or.inl (by omega)
  · rw [if_neg h, if_neg h]

theorem upC_alnum {c : Char} (h : isAlnumCh c = true) : upC c = c := by
  apply upC_eq_self
  rw [isAlnum_iff] at h
  rw [Bool.eq_false_iff, Ne, isLower_iff]
  omega

theorem alnum_not_space {c : Char} (h : isAlnumCh c = true) : isSpaceCh c = false := by
  rw [isAlnum_iff] at h
  rw [Bool.eq_false_iff, Ne, isSpace_iff]
  omega

theorem alnum_print {c : Char} (h : isAlnumCh c = true) : isPrintCh c = true := by
  rw [isAlnum_iff] at h
  rw [isPrint_iff]
  omega

/-! ## List-level lemmas -/

theorem mapSelf {f : Char → Char} :
    ∀ {l : List Char}, (∀ c ∈ l, f c = c) → l.map f = l
  | [], _ => rfl
  | c :: cs, h => by
    simp only [List.map_cons, List.cons.injEq]
    exact ⟨h c (by simp), mapSelf fun d hd => h d (by simp [hd])⟩

theorem dropWhile_eq_self_of {p : Char → Bool} {l : List Char}
    (h : ∀ c ∈ l, p c = false) : l.dropWhile p = l := by
  cases l with
  | nil => rfl
  | cons c cs => simp [List.dropWhile, h c (by simp)]

theorem strip_eq_self_of {l : List Char}
    (h : ∀ c ∈ l, isSpaceCh c = false) : stripList l = l := by
  unfold stripList
  rw [dropWhile_eq_self_of h, dropWhile_eq_self_of fun c hc => h c (by simpa using hc),
    List.reverse_reverse]

theorem replaceCh_mem {a b x : Char} {l : List Char}
    (h : x ∈ replaceCh a b l) : x = b ∨ x ∈ l := by
  unfold replaceCh at h
  obtain ⟨c, hc, hcx⟩ := List.mem_map.mp h
  by_cases hca : c == a
  · simp [hca] at hcx; exact Or.inl hcx.symm
  · simp [hca] at hcx; exact Or.inr (hcx ▸ hc)

theorem replaceCh_eq_self {a b : Char} {l : List Char} (h : a ∉ l) :
    replaceCh a b l = l :=
  mapSelf fun c hc => by
    have : (c == a) = false := by
      rw [beq_eq_false_iff_ne]
      rintro rfl; exact h hc
    simp [this]

theorem is1BM_mem_B {l : List Char} (h : is1BM l = true) : 'B' ∈ l := by
  unfold is1BM at h
  simp only [Bool.and_eq_true, beq_iff_eq] at h
  have h4 := h.1.1.1.1
  have : 'B' ∈ l.take 4 := by rw [h4]; simp
  exact List.mem_of_mem_take this

theorem fix1bm_cons (c : Char) (cs : List Char) (h : is1BM (c :: cs) = false) :
    fix1bm (c :: cs) = c :: fix1bm cs := by
  match cs with
  | [] => rfl
  | [a] => rfl
  | [a, b] => rfl
  | [a, b, d] => rfl
  | [a, b, d, e] => rfl
  | [a, b, d, e, f] => rfl
  | a :: b :: d :: e :: f :: g :: rest =>
    show (if is1BM (c :: a :: b :: d :: e :: f :: g :: rest) = true then _ else _) = _
    rw [if_neg (by simp [h])]

theorem fix1bm_eq_self {l : List Char} (h : 'B' ∉ l) : fix1bm l = l := by
  induction l with
  | nil => rfl
  | cons c cs ih =>
    have hB : is1BM (c :: cs) = false := by
      rw [Bool.eq_false_iff]
      intro habs
      exact h (is1BM_mem_B habs)
    rw [fix1bm_cons c cs hB, ih fun hc => h (by simp [hc])]

theorem removeWs_eq_self {l : List Char} (h : ∀ c ∈ l, isSpaceCh c = false) :
    removeWs l = l := by
  unfold removeWs
  apply List.filter_eq_self.mpr
  intro c hc
  simp [h c hc]

theorem collapseAux_eq_self : ∀ {b : Bool} {l : List Char},
    (∀ c ∈ l, isSpaceCh c = false) → collapseAux b l = l
  | _, [], _ => rfl
  | b, c :: cs, h => by
    rw [collapseAux, if_neg (by simp [h c (by simp)])]
    rw [collapseAux_eq_self fun d hd => h d (by simp [hd])]

theorem collapseWs_eq_self {l : List Char}
    (h : ∀ c ∈ l, isSpaceCh c = false) : collapseWs l = l :=
  collapseAux_eq_self h

/-! ## Claim C7: header scan on the sample row -/

/-- Claim C7: the header scan on the 11-cell sample row (three identity
columns, then each of the two subject codes repeated four times) yields
exactly the two subject codes in order. -/
theorem claim7_header_scan :
    extract_subject_codes
      (["SI No", "USN", "Name",
        "22CS7PCCCT", "22CS7PCCCT", "22CS7PCCCT", "22CS7PCCCT",
        "22CS7PENLP", "22CS7PENLP", "22CS7PENLP", "22CS7PENLP"].map String.data) =
      ["22CS7PCCCT".data, "22CS7PENLP".data] := by
  rfl

/-! ## Claim C6: Mark correction on the string 1O5 -/

/-- Claim C6 (code bug): the spec requires Mark correction on `"1O5"` to
yield `"105"`, but the classifier rejects `"1O5"` as a Mark (the letter
`O` fails every mark pattern), so the corrector returns it unchanged via
the FreeText branch; the `O→0` entry of the marks table is unreachable
for such inputs. -/
theorem claim6_code_eval :
    correct "1O5".data = "1O5".data ∧
    is_likely_marks "1O5".data = false ∧
    correct "1O5".data ≠ "105".data := by
  refine ⟨rfl, rfl, by decide⟩

/-! ## Claim C2: totality of the corrector -/

/-- Claim C2 (corrected): for string input the corrector is total and
trimmed-empty input yields the empty string, but an absent (non-string)
input is returned unchanged rather than converted to the empty string. -/
theorem claim2_amended :
    correctCell none = none ∧
    ∀ s : List Char, stripList s = [] → correct s = [] := by
  refine ⟨rfl, fun s h => ?_⟩
  unfold correct
  simp [h]

/-- Counterexample to claim C2 as stated: the absent cell maps to itself,
not to the empty string. -/
theorem claim2_cex : correctCell none ≠ some [] := by
  simp [correctCell]

/-- Witness for claim C2 at the one-blank string. -/
theorem claim2_witness : correct [' '] = [] :=
  claim2_amended.2 [' '] (by rfl)

/-! ## Claim C4: the identifier classification pattern -/

/-- Claim C4 (corrected): classification as Identifier is equivalent to
the trial-substituted, uppercased, stripped text matching the pattern
with the literal leading digit 1 (not an arbitrary leading digit). -/
theorem claim4_amended (s : List Char) :
    is_likely_usn s = true ↔
      specIdLiteralOne (trialSubst (stripList (s.map upC))) = true := by
  suffices key : ∀ u : List Char, usnRegexMatch u = specIdLiteralOne u by
    rw [is_likely_usn, key]
  intro u
  match u with
  | [] => rfl
  | [c] =>
    simp [usnRegexMatch, specIdLiteralOne]
  | c0 :: c1 :: rest =>
    simp only [usnRegexMatch, specIdLiteralOne, List.take_succ_cons, List.take_zero,
      List.drop_succ_cons, List.drop_zero, List.length_cons]
    rw [Bool.eq_iff_iff]
    simp only [Bool.and_eq_true, Bool.or_eq_true, beq_iff_eq, decide_eq_true_eq,
      List.cons.injEq, and_true]
    constructor
    · rintro ⟨⟨⟨⟨h1, h2⟩, h3⟩, h4⟩, h5⟩
      refine ⟨⟨⟨?_, h3⟩, by omega⟩, by omega⟩
      rcases h2 with h2 | h2
      · exact Or.inl ⟨h1, h2⟩
      · exact Or.inr ⟨h1, h2⟩
    · rintro ⟨⟨⟨h1 | h1, h3⟩, h4⟩, h5⟩
      · exact ⟨⟨⟨⟨h1.1, Or.inl h1.2⟩, h3⟩, by omega⟩, by omega⟩
      · exact ⟨⟨⟨⟨h1.1, Or.inr h1.2⟩, h3⟩, by omega⟩, by omega⟩

/-- Counterexample to claim C4 as stated: `"2M21CS0012"` matches the
leading-digit reading of the pattern but is not classified Identifier. -/
theorem claim4_cex :
    specIdLeadingDigit (trialSubst (stripList ("2M21CS0012".data.map upC))) = true ∧
    is_likely_usn "2M21CS0012".data = false := by
  exact ⟨rfl, rfl⟩

/-! ## Claim C5: decoder identifier cleaning vs Corrector transform -/

/-- Claim C5 (corrected): the decoder's `clean_usn` agrees with the
Corrector's Identifier transform on strings free of lowercase letters,
whitespace, and the characters B, Z, S; they are not the same function in
general (`clean_usn` has no B→8, Z→2, S→5 rules and no transposition
repair). -/
theorem claim5_amended (s : List Char)
    (h : ∀ c ∈ s, isLowerCh c = false ∧ isSpaceCh c = false ∧
      c ≠ 'B' ∧ c ≠ 'Z' ∧ c ≠ 'S') :
    clean_usn s = usnBranch s := by
  have hup : s.map upC = s := mapSelf fun c hc => upC_eq_self (h c hc).1
  have hstrip : stripList s = s := strip_eq_self_of fun c hc => (h c hc).2.1
  unfold clean_usn usnBranch usnSubst
  rw [hup, hstrip]
  set r3 := replaceCh 'l' '1' (replaceCh 'I' '1' (replaceCh 'O' '0' s)) with hr3
  have hmemr3 : ∀ x ∈ r3, x = '1' ∨ x = '0' ∨ x ∈ s := by
    intro x hx
    rcases replaceCh_mem hx with h1 | hx2
    · exact Or.inl h1
    rcases replaceCh_mem hx2 with h1 | hx3
    · exact Or.inl h1
    rcases replaceCh_mem hx3 with h0 | hxs
    · exact Or.inr (Or.inl h0)
    · exact Or.inr (Or.inr hxs)
  have hBnot : 'B' ∉ r3 := by
    intro habs
    rcases hmemr3 _ habs with h1 | h0 | hs0
    · exact absurd h1 (by decide)
    · exact absurd h0 (by decide)
    · exact (h _ hs0).2.2.1 rfl
  have hZnot : 'Z' ∉ r3 := by
    intro habs
    rcases hmemr3 _ habs with h1 | h0 | hs0
    · exact absurd h1 (by decide)
    · exact absurd h0 (by decide)
    · exact (h _ hs0).2.2.2.1 rfl
  have hSnot : 'S' ∉ r3 := by
    intro habs
    rcases hmemr3 _ habs with h1 | h0 | hs0
    · exact absurd h1 (by decide)
    · exact absurd h0 (by decide)
    · exact (h _ hs0).2.2.2.2 rfl
  rw [replaceCh_eq_self hBnot, replaceCh_eq_self hZnot, replaceCh_eq_self hSnot]
  have hfix : fix1bm r3 = r3 := fix1bm_eq_self hBnot
  rw [hfix]
  have hfilter : (r3.filter isAlnumCh).map upC = r3.filter isAlnumCh :=
    mapSelf fun c hc => upC_alnum (List.of_mem_filter hc)
  rw [hfilter]
  by_cases hs : s.isEmpty
  · have hnil : s = [] := List.isEmpty_iff.mp hs
    subst hnil
    simp [hr3, replaceCh]
  · show (if s.isEmpty = true then [] else r3.filter isAlnumCh) = r3.filter isAlnumCh
    rw [if_neg (by simp [hs])]

/-- Counterexample to claim C5 as stated: on the one-character string `B`
the two functions differ (`clean_usn` keeps `B`; the Corrector's
Identifier transform rewrites it to `8`). -/
theorem claim5_cex : clean_usn ['B'] ≠ usnBranch ['B'] := by
  decide

/-- Witness for claim C5 on a string free of the distinguishing
characters. -/
theorem claim5_witness : clean_usn "1M021CT001".data = usnBranch "1M021CT001".data :=
  claim5_amended "1M021CT001".data (by decide)

/-! ## Sorting, renumbering and record-list lemmas -/

theorem insRec_perm (r : SRec) (l : List SRec) : (insRec r l).Perm (r :: l) := by
  induction l with
  | nil => exact List.Perm.refl _
  | cons x xs ih =>
    rw [insRec]
    split
    · exact List.Perm.refl _
    · exact ((ih.cons x).trans (List.Perm.swap r x xs))

theorem sortRecs_perm (l : List SRec) : (sortRecs l).Perm l := by
  induction l with
  | nil => exact List.Perm.refl _
  | cons r rs ih => exact (insRec_perm r (sortRecs rs)).trans (ih.cons r)

theorem chain_insRec {r : SRec} {l : List SRec}
    (h : List.Chain' (fun a b => a.sl ≤ b.sl) l) :
    List.Chain' (fun a b => a.sl ≤ b.sl) (insRec r l) := by
  induction l with
  | nil => simp [insRec]
  | cons x xs ih =>
    rw [insRec]
    split
    case isTrue hle => exact List.Chain'.cons hle h
    case isFalse hgt =>
      apply List.chain'_cons'.mpr
      refine ⟨?_, ih h.tail⟩
      intro y hy
      cases xs with
      | nil =>
        simp [insRec] at hy
        subst hy
        omega
      | cons z zs =>
        rw [insRec] at hy
        split at hy
        · simp at hy
          subst hy
          omega
        · simp at hy
          subst hy
          exact (List.chain'_cons.mp h).1

theorem sortRecs_chain (l : List SRec) :
    List.Chain' (fun a b => a.sl ≤ b.sl) (sortRecs l) := by
  induction l with
  | nil => simp [sortRecs]
  | cons r rs ih => exact chain_insRec ih

theorem buildRecords_sl_eq_src (codes : List Cell) :
    ∀ (rows : List Row) (k : Nat) (r : SRec),
      r ∈ buildRecords codes rows k → r.sl = r.src := by
  intro rows
  induction rows with
  | nil => intro k r h; simp [buildRecords] at h
  | cons row rest ih =>
    intro k r h
    rw [buildRecords] at h
    split at h
    · exact ih k r h
    · split at h
      · rcases List.mem_cons.mp h with rfl | hmem
        · rfl
        · exact ih (k + 1) r hmem
      · exact ih k r h

theorem renumber_length : ∀ (n : Nat) (l : List SRec),
    (renumberFrom n l).length = l.length
  | _, [] => rfl
  | n, r :: rs => by simp [renumberFrom, renumber_length (n + 1) rs]

theorem renumber_map_sl : ∀ (n : Nat) (l : List SRec),
    (renumberFrom n l).map (fun r => r.sl) = List.range' n l.length
  | _, [] => rfl
  | n, r :: rs => by
    simp only [renumberFrom, List.map_cons, List.length_cons, List.range'_succ]
    exact congrArg _ (renumber_map_sl (n + 1) rs)

theorem renumber_map_stripSl : ∀ (n : Nat) (l : List SRec),
    (renumberFrom n l).map stripSl = l.map stripSl
  | _, [] => rfl
  | n, r :: rs => by
    simp only [renumberFrom, List.map_cons]
    exact congrArg _ (renumber_map_stripSl (n + 1) rs)

theorem renumber_map_src : ∀ (n : Nat) (l : List SRec),
    (renumberFrom n l).map (fun r => r.src) = l.map (fun r => r.src)
  | _, [] => rfl
  | n, r :: rs => by
    simp only [renumberFrom, List.map_cons]
    exact congrArg _ (renumber_map_src (n + 1) rs)

/-! ## Claim C9: decode failure conditions -/

/-- Claim C9: a grid (of the documented four-row layout) whose header
scan yields no subject codes fails with `noSubjectCodesFound`; when codes
exist but no data row is accepted, the decode fails with the distinct
`noStudentRowsFound`; both are fatal (no record sequence is produced). -/
theorem claim9_failures :
    (∀ g : Grid, 4 ≤ g.length → extract_subject_codes (g.getD 1 []) = [] →
      processCsv g = .error .noSubjectCodesFound) ∧
    (∀ g : Grid, 4 ≤ g.length → extract_subject_codes (g.getD 1 []) ≠ [] →
      buildRecords (extract_subject_codes (g.getD 1 [])) (g.drop 3) 0 = [] →
      processCsv g = .error .noStudentRowsFound) ∧
    DErr.noSubjectCodesFound ≠ DErr.noStudentRowsFound ∧
    (∀ (g : Grid) (e : DErr) (rs : List SRec) (codes : List Cell),
      processCsv g = .error e → processCsv g ≠ .ok (rs, codes)) := by
  refine ⟨fun g h4 hemp => ?_, fun g h4 hne hrecs => ?_, by decide,
    fun g e rs codes he hok => ?_⟩
  · unfold processCsv
    rw [if_neg (by omega), if_pos hemp]
  · unfold processCsv
    rw [if_neg (by omega), if_neg hne, if_pos hrecs]
  · rw [he] at hok
    exact absurd hok (by simp)

/-- Witness for claim C9: both failure branches at concrete grids. -/
theorem claim9_witness :
    processCsv c9gridA = .error .noSubjectCodesFound ∧
    processCsv c9gridB = .error .noStudentRowsFound :=
  ⟨claim9_failures.1 c9gridA (by decide) (by decide),
   claim9_failures.2.1 c9gridB (by decide) (by decide) (by decide)⟩

/-! ## Claim C8: ordinal renumbering -/

/-- Claim C8: the emitted record sequence carries ordinals `1..N`
contiguously, is ordered by the source ordinals (column 0 when it parses
as a clean integer, next sequential position otherwise — as determined by
the acceptance loop `buildRecords`), and is a permutation of the accepted
records up to the ordinal rewrite. -/
theorem claim8_ordinals (g : Grid) (rs : List SRec) (codes : List Cell)
    (h : processCsv g = .ok (rs, codes)) :
    rs.map (fun r => r.sl) = List.range' 1 rs.length ∧
    List.Chain' (· ≤ ·) (rs.map (fun r => r.src)) ∧
    (rs.map stripSl).Perm ((buildRecords codes (g.drop 3) 0).map stripSl) := by
  unfold processCsv at h
  by_cases h4 : g.length < 4
  · rw [if_pos h4] at h; exact absurd h (by simp)
  rw [if_neg h4] at h
  by_cases hc : extract_subject_codes (g.getD 1 []) = []
  · rw [if_pos hc] at h; exact absurd h (by simp)
  rw [if_neg hc] at h
  by_cases hr : buildRecords (extract_subject_codes (g.getD 1 [])) (g.drop 3) 0 = []
  · rw [if_pos hr] at h; exact absurd h (by simp)
  rw [if_neg hr] at h
  injection h with hpair
  have hcodes : codes = extract_subject_codes (g.getD 1 []) :=
    (congrArg Prod.snd hpair).symm
  have hrs : rs = renumberFrom 1 (sortRecs
      (buildRecords (extract_subject_codes (g.getD 1 [])) (g.drop 3) 0)) :=
    (congrArg Prod.fst hpair).symm
  subst hcodes
  subst hrs
  set recs := buildRecords (extract_subject_codes (g.getD 1 [])) (g.drop 3) 0 with hrecs
  refine ⟨?_, ?_, ?_⟩
  · rw [renumber_map_sl, renumber_length]
  · rw [renumber_map_src]
    have hsl : ∀ r ∈ sortRecs recs, r.sl = r.src := by
      intro r hrmem
      exact buildRecords_sl_eq_src _ _ _ r ((sortRecs_perm recs).mem_iff.mp hrmem)
    have hmaps : (sortRecs recs).map (fun r => r.src) =
        (sortRecs recs).map (fun r => r.sl) := by
      apply List.map_congr_left
      intro r hrmem
      exact (hsl r hrmem).symm
    rw [hmaps, List.chain'_map]
    exact sortRecs_chain recs
  · rw [renumber_map_stripSl]
    exact (sortRecs_perm recs).map stripSl

/-- Witness for claim C8 on a grid with ordinals 7 and a non-numeric
cell. -/
theorem claim8_witness :
    c8out.1.map (fun r => r.sl) = List.range' 1 c8out.1.length ∧
    List.Chain' (· ≤ ·) (c8out.1.map (fun r => r.src)) ∧
    (c8out.1.map stripSl).Perm
      ((buildRecords c8out.2 (c8grid.drop 3) 0).map stripSl) :=
  claim8_ordinals c8grid c8out.1 c8out.2 (by rfl)

/-! ## Claim C1: counterexample to rectangular alias storage -/

/-- Counterexample to claim C1 as stated: for `c1grid` (one subject, one
accepted row too short for the score block) the emitted record carries
the four canonical-key fields but no alias-key fields at all. -/
theorem claim1_cex :
    processCsv c1grid = .ok ([c1rec], ["22AAAAAA".data]) ∧
    aliasFor "22AAAAAA".data = "22AA".data ∧
    lookupLast ("22AA".data ++ kCIE) c1rec.scores = none ∧
    lookupLast ("22AAAAAA".data ++ kCIE) c1rec.scores = some [] := by
  refine ⟨rfl, rfl, rfl, rfl⟩

/-! ## Score-map lookup lemmas -/

theorem lookupLast_append (k : Cell) (xs ys : List (Cell × Cell)) :
    lookupLast k (xs ++ ys) =
      match lookupLast k ys with
      | some v => some v
      | none => lookupLast k xs := by
  induction xs with
  | nil =>
    show lookupLast k ys = _
    cases lookupLast k ys <;> rfl
  | cons p ps ih =>
    rw [List.cons_append, lookupLast, ih, lookupLast]
    cases lookupLast k ys <;> cases lookupLast k ps <;> rfl

theorem lookupLast_append_some {k v : Cell} {xs ys : List (Cell × Cell)}
    (h : lookupLast k ys = some v) : lookupLast k (xs ++ ys) = some v := by
  rw [lookupLast_append, h]

theorem lookupLast_append_none {k : Cell} {xs ys : List (Cell × Cell)}
    (h : lookupLast k ys = none) : lookupLast k (xs ++ ys) = lookupLast k xs := by
  rw [lookupLast_append, h]

theorem lookupLast_eq_none {k : Cell} :
    ∀ {l : List (Cell × Cell)}, (∀ p ∈ l, p.1 ≠ k) → lookupLast k l = none
  | [], _ => rfl
  | p :: rest, h => by
    rw [lookupLast, lookupLast_eq_none fun q hq => h q (by simp [hq])]
    rw [if_neg (h p (by simp))]

theorem lookupLast_none_of_append {k : Cell} {xs ys : List (Cell × Cell)}
    (h : lookupLast k (xs ++ ys) = none) : lookupLast k ys = none := by
  rw [lookupLast_append] at h
  cases hys : lookupLast k ys with
  | none => rfl
  | some v => rw [hys] at h; exact absurd h (by simp)

/-! ## Key-shape lemmas -/

theorem rev_take4_append (x s : Cell) (h : 4 ≤ s.length) :
    (x ++ s).reverse.take 4 = s.reverse.take 4 := by
  rw [List.reverse_append, List.take_append_of_le_length (by simpa using h)]

theorem key_cancel {x y s t : Cell} (hs : s ∈ sfxList) (ht : t ∈ sfxList)
    (h : x ++ s = y ++ t) : x = y ∧ s = t := by
  simp only [sfxList, List.mem_cons, List.not_mem_nil, or_false] at hs ht
  have hs4 : 4 ≤ s.length := by
    rcases hs with rfl | rfl | rfl | rfl <;> decide
  have ht4 : 4 ≤ t.length := by
    rcases ht with rfl | rfl | rfl | rfl <;> decide
  have htake : s.reverse.take 4 = t.reverse.take 4 := by
    have h4 := congrArg (fun l : Cell => l.reverse.take 4) h
    simp only at h4
    rwa [rev_take4_append x s hs4, rev_take4_append y t ht4] at h4
  have hst : s = t := by
    rcases hs with rfl | rfl | rfl | rfl <;> rcases ht with rfl | rfl | rfl | rfl <;>
      first
        | rfl
        | exact absurd htake (by decide)
  subst hst
  have hlen : x.length = y.length := by
    have hh := congrArg List.length h
    simp only [List.length_append] at hh
    omega
  exact ⟨(List.append_inj h hlen).1, rfl⟩

theorem blockKeys_keys {p : Cell × Cell} {x : Cell} {row : Row} {i : Nat}
    (h : p ∈ blockKeys x row i) : ∃ s ∈ sfxList, p.1 = x ++ s := by
  simp only [blockKeys, List.mem_cons, List.not_mem_nil, or_false] at h
  rcases h with rfl | rfl | rfl | rfl
  · exact ⟨kCIE, by simp [sfxList], rfl⟩
  · exact ⟨kSEE, by simp [sfxList], rfl⟩
  · exact ⟨kTOT, by simp [sfxList], rfl⟩
  · exact ⟨kGRD, by simp [sfxList], rfl⟩

theorem emptyBlockKeys_keys {p : Cell × Cell} {x : Cell}
    (h : p ∈ emptyBlockKeys x) : ∃ s ∈ sfxList, p.1 = x ++ s ∧ p.2 = [] := by
  simp only [emptyBlockKeys, List.mem_cons, List.not_mem_nil, or_false] at h
  rcases h with rfl | rfl | rfl | rfl
  · exact ⟨kCIE, by simp [sfxList], rfl, rfl⟩
  · exact ⟨kSEE, by simp [sfxList], rfl, rfl⟩
  · exact ⟨kTOT, by simp [sfxList], rfl, rfl⟩
  · exact ⟨kGRD, by simp [sfxList], rfl, rfl⟩

theorem blockKeys_lookup_cie (x : Cell) (row : Row) (i : Nat) :
    lookupLast (x ++ kCIE) (blockKeys x row i) = some (stripList (row.getD i [])) := by
  have hS : ¬(x ++ kSEE = x ++ kCIE) :=
    fun hab => absurd (List.append_cancel_left hab) (by decide)
  have hT : ¬(x ++ kTOT = x ++ kCIE) :=
    fun hab => absurd (List.append_cancel_left hab) (by decide)
  have hG : ¬(x ++ kGRD = x ++ kCIE) :=
    fun hab => absurd (List.append_cancel_left hab) (by decide)
  simp [blockKeys, lookupLast, hS, hT, hG]

theorem blockKeys_lookup_see (x : Cell) (row : Row) (i : Nat) :
    lookupLast (x ++ kSEE) (blockKeys x row i) =
      some (stripList (row.getD (i + 1) [])) := by
  have hT : ¬(x ++ kTOT = x ++ kSEE) :=
    fun hab => absurd (List.append_cancel_left hab) (by decide)
  have hG : ¬(x ++ kGRD = x ++ kSEE) :=
    fun hab => absurd (List.append_cancel_left hab) (by decide)
  simp [blockKeys, lookupLast, hT, hG]

theorem blockKeys_lookup_tot (x : Cell) (row : Row) (i : Nat) :
    lookupLast (x ++ kTOT) (blockKeys x row i) =
      some (stripList (row.getD (i + 2) [])) := by
  have hG : ¬(x ++ kGRD = x ++ kTOT) :=
    fun hab => absurd (List.append_cancel_left hab) (by decide)
  simp [blockKeys, lookupLast, hG]

theorem blockKeys_lookup_grd (x : Cell) (row : Row) (i : Nat) :
    lookupLast (x ++ kGRD) (blockKeys x row i) =
      some (stripList (row.getD (i + 3) [])) := by
  simp [blockKeys, lookupLast]

theorem blockKeys_lookup_none {k x : Cell} {row : Row} {i : Nat}
    (h : ∀ s ∈ sfxList, x ++ s ≠ k) :
    lookupLast k (blockKeys x row i) = none := by
  apply lookupLast_eq_none
  intro p hp
  obtain ⟨s, hs, hps⟩ := blockKeys_keys hp
  rw [hps]
  exact h s hs

/-! ## Score-construction lemmas -/

theorem buildScores_append (xs ys : List Cell) (i : Nat) (row : Row)
    (h : i + 4 * xs.length ≤ row.length) :
    buildScores (xs ++ ys) i row =
      buildScores xs i row ++ buildScores ys (i + 4 * xs.length) row := by
  induction xs generalizing i with
  | nil => simp [buildScores]
  | cons c cs ih =>
    have hlt : i + 3 < row.length := by
      simp only [List.length_cons] at h
      omega
    rw [List.cons_append, buildScores, if_pos hlt, buildScores, if_pos hlt,
      ih (i + 4) (by simp only [List.length_cons] at h ⊢; omega)]
    have hidx : i + 4 * (c :: cs).length = i + 4 + 4 * cs.length := by
      simp only [List.length_cons]
      ring
    rw [hidx]
    simp [List.append_assoc]

theorem buildScores_keys :
    ∀ {cs : List Cell} {i : Nat} {row : Row} {p : Cell × Cell},
      p ∈ buildScores cs i row →
      ∃ c ∈ cs, ∃ s ∈ sfxList, p.1 = c ++ s ∨ p.1 = aliasFor c ++ s := by
  intro cs
  induction cs with
  | nil => intro i row p h; simp [buildScores] at h
  | cons c0 cs ih =>
    intro i row p h
    rw [buildScores] at h
    split at h
    · rcases List.mem_append.mp h with h12 | h4
      · rcases List.mem_append.mp h12 with h1 | h3
        · obtain ⟨s, hs, hps⟩ := blockKeys_keys h1
          exact ⟨c0, by simp, s, hs, Or.inl hps⟩
        · split at h3
          · simp at h3
          · obtain ⟨s, hs, hps⟩ := blockKeys_keys h3
            exact ⟨c0, by simp, s, hs, Or.inr hps⟩
      · obtain ⟨c, hc, s, hs, hps⟩ := ih h4
        exact ⟨c, by simp [hc], s, hs, hps⟩
    · rcases List.mem_append.mp h with h1 | h2
      · obtain ⟨s, hs, hps, _⟩ := emptyBlockKeys_keys h1
        exact ⟨c0, by simp, s, hs, Or.inl hps⟩
      · obtain ⟨c, hc, s, hs, hps⟩ := ih h2
        exact ⟨c, by simp [hc], s, hs, hps⟩

/-! ## Claim C10: alias collision shadowing -/

/-- Claim C10: two discovered codes outside the alias table that share
their first four characters get the same fallback alias, and in a row
holding every score block the alias-keyed fields carry the component
values of the later (last-colliding) code's block, shadowing the earlier
code's values. -/
theorem claim10_alias_shadowing
    (cA cB : Cell) (l1 l2 : List Cell) (row : Row)
    (htA : aliasTbl cA = none) (htB : aliasTbl cB = none)
    (hshare : cA.take 4 = cB.take 4)
    (hmem : cA ∈ l1)
    (hlast : ∀ c ∈ l2, aliasFor c ≠ aliasFor cB)
    (hstem : ∀ c ∈ l1 ++ cB :: l2, c ≠ aliasFor cB)
    (hrow : 4 * (l1 ++ cB :: l2).length + 2 < row.length) :
    aliasFor cA = aliasFor cB ∧
    lookupLast (aliasFor cB ++ kCIE) (buildScores (l1 ++ cB :: l2) 3 row) =
      some (stripList (row.getD (3 + 4 * l1.length) [])) ∧
    lookupLast (aliasFor cB ++ kSEE) (buildScores (l1 ++ cB :: l2) 3 row) =
      some (stripList (row.getD (3 + 4 * l1.length + 1) [])) ∧
    lookupLast (aliasFor cB ++ kTOT) (buildScores (l1 ++ cB :: l2) 3 row) =
      some (stripList (row.getD (3 + 4 * l1.length + 2) [])) ∧
    lookupLast (aliasFor cB ++ kGRD) (buildScores (l1 ++ cB :: l2) 3 row) =
      some (stripList (row.getD (3 + 4 * l1.length + 3) [])) := by
  have halias : aliasFor cA = aliasFor cB := by
    unfold aliasFor
    rw [htA, htB, Option.getD_none, Option.getD_none, hshare]
  have hlen : 4 * (l1.length + l2.length + 1) + 2 < row.length := by
    simpa [List.length_append, List.length_cons, Nat.add_comm, Nat.add_assoc,
      Nat.add_left_comm] using hrow
  have haNe : aliasFor cB ≠ [] := by
    have hcb : cB ≠ aliasFor cB := hstem cB (by simp)
    intro hnil
    unfold aliasFor at hnil hcb
    rw [htB, Option.getD_none] at hnil hcb
    rcases (List.take_eq_nil_iff).mp hnil with h4 | hB
    · exact absurd h4 (by omega)
    · exact hcb (by rw [hB]; rfl)
  have hsplit : buildScores (l1 ++ cB :: l2) 3 row =
      buildScores l1 3 row ++ buildScores (cB :: l2) (3 + 4 * l1.length) row :=
    buildScores_append l1 (cB :: l2) 3 row (by omega)
  have hpres : 3 + 4 * l1.length + 3 < row.length := by omega
  have hunfold : buildScores (cB :: l2) (3 + 4 * l1.length) row =
      (blockKeys cB row (3 + 4 * l1.length) ++
        blockKeys (aliasFor cB) row (3 + 4 * l1.length)) ++
        buildScores l2 (3 + 4 * l1.length + 4) row := by
    rw [buildScores, if_pos hpres, if_neg (by simpa [List.isEmpty_iff] using haNe)]
  have hrest : ∀ s ∈ sfxList,
      lookupLast (aliasFor cB ++ s) (buildScores l2 (3 + 4 * l1.length + 4) row)
        = none := by
    intro s hs
    apply lookupLast_eq_none
    intro p hp
    obtain ⟨c, hc, t, ht, hpt⟩ := buildScores_keys hp
    rcases hpt with hpt | hpt <;> rw [hpt] <;> intro habs
    · exact hstem c (by simp [hc]) (key_cancel ht hs habs).1
    · exact hlast c hc (key_cancel ht hs habs).1
  have hblockB : ∀ s ∈ sfxList,
      lookupLast (aliasFor cB ++ s) (blockKeys cB row (3 + 4 * l1.length)) = none := by
    intro s hs
    apply blockKeys_lookup_none
    intro t ht habs
    exact hstem cB (by simp) (key_cancel ht hs habs).1
  have main : ∀ (s : Cell), s ∈ sfxList →
      ∀ v : Cell,
        lookupLast (aliasFor cB ++ s)
          (blockKeys (aliasFor cB) row (3 + 4 * l1.length)) = some v →
        lookupLast (aliasFor cB ++ s) (buildScores (l1 ++ cB :: l2) 3 row) = some v := by
    intro s hs v hv
    rw [hsplit]
    apply lookupLast_append_some
    rw [hunfold,
      lookupLast_append (aliasFor cB ++ s) _ (buildScores l2 (3 + 4 * l1.length + 4) row),
      hrest s hs,
      lookupLast_append (aliasFor cB ++ s) (blockKeys cB row (3 + 4 * l1.length))
        (blockKeys (aliasFor cB) row (3 + 4 * l1.length)),
      hv]
  refine ⟨halias,
    main kCIE (by simp [sfxList]) _ (blockKeys_lookup_cie _ row _),
    main kSEE (by simp [sfxList]) _ (blockKeys_lookup_see _ row _),
    main kTOT (by simp [sfxList]) _ (blockKeys_lookup_tot _ row _),
    main kGRD (by simp [sfxList]) _ (blockKeys_lookup_grd _ row _)⟩

/-- Witness for claim C10: codes `22XXAAAA` and `22XXBBBB` collide on the
fallback alias `22XX`, and the alias fields carry the second code's
block. -/
theorem claim10_witness :
    aliasFor c10c1 = aliasFor c10c2 ∧
    lookupLast (aliasFor c10c2 ++ kCIE) (buildScores ([c10c1] ++ c10c2 :: []) 3 c10row) =
      some (stripList (c10row.getD (3 + 4 * [c10c1].length) [])) ∧
    lookupLast (aliasFor c10c2 ++ kSEE) (buildScores ([c10c1] ++ c10c2 :: []) 3 c10row) =
      some (stripList (c10row.getD (3 + 4 * [c10c1].length + 1) [])) ∧
    lookupLast (aliasFor c10c2 ++ kTOT) (buildScores ([c10c1] ++ c10c2 :: []) 3 c10row) =
      some (stripList (c10row.getD (3 + 4 * [c10c1].length + 2) [])) ∧
    lookupLast (aliasFor c10c2 ++ kGRD) (buildScores ([c10c1] ++ c10c2 :: []) 3 c10row) =
      some (stripList (c10row.getD (3 + 4 * [c10c1].length + 3) [])) :=
  claim10_alias_shadowing c10c1 c10c2 [c10c1] [] c10row
    (by rfl) (by rfl) (by rfl) (by simp)
    (by intro c hc; simp at hc)
    (by decide) (by decide)

/-! ## Header-scan code-shape lemmas -/

theorem acceptsCode_take2 {c : Cell} (h : acceptsCodeB c = true) :
    c.take 2 = ['2', '2'] := by
  unfold acceptsCodeB at h
  simp only [Bool.and_eq_true, beq_iff_eq] at h
  exact h.1.1

theorem sub22CST_cons (c : Char) (cs : List Char) (h : is22CST (c :: cs) = false) :
    sub22CST (c :: cs) = c :: sub22CST cs := by
  match cs with
  | [] => rfl
  | [a] => rfl
  | [a, b] => rfl
  | [a, b, d] => rfl
  | a :: b :: d :: e :: rest =>
    show (if is22CST (c :: a :: b :: d :: e :: rest) = true then _ else _) = _
    rw [if_neg (by simp [h])]

theorem sub22CST_mem_two : ∀ {l : List Char}, '2' ∈ l → '2' ∈ sub22CST l := by
  intro l
  induction l with
  | nil => intro h; simp at h
  | cons c cs ih =>
    intro h
    by_cases hg : is22CST (c :: cs) = true
    · match cs with
      | [] => simp [is22CST] at hg
      | [a] => simp [is22CST] at hg
      | [a, b] => simp [is22CST] at hg
      | [a, b, d] => simp [is22CST] at hg
      | a :: b :: d :: e :: rest =>
        rw [show sub22CST (c :: a :: b :: d :: e :: rest) =
          if is22CST (c :: a :: b :: d :: e :: rest) = true then
            '2' :: '2' :: 'C' :: 'S' :: '7' :: sub22CST rest
          else c :: sub22CST (a :: b :: d :: e :: rest) from rfl, if_pos hg]
        simp
    · rw [sub22CST_cons c cs (by simpa using hg)]
      rcases List.mem_cons.mp h with rfl | hcs
      · simp
      · simp [ih hcs]

theorem sub22MEZO_cons (c : Char) (cs : List Char) (h : is22MEZO (c :: cs) = false) :
    sub22MEZO (c :: cs) = c :: sub22MEZO cs := by
  match cs with
  | [] => rfl
  | [a] => rfl
  | [a, b] => rfl
  | [a, b, d] => rfl
  | [a, b, d, e] => rfl
  | a :: b :: d :: e :: f :: rest =>
    show (if is22MEZO (c :: a :: b :: d :: e :: f :: rest) = true then _ else _) = _
    rw [if_neg (by simp [h])]

theorem sub22MEZO_mem_two : ∀ {l : List Char}, '2' ∈ l → '2' ∈ sub22MEZO l := by
  intro l
  induction l with
  | nil => intro h; simp at h
  | cons c cs ih =>
    intro h
    by_cases hg : is22MEZO (c :: cs) = true
    · match cs with
      | [] => simp [is22MEZO] at hg
      | [a] => simp [is22MEZO] at hg
      | [a, b] => simp [is22MEZO] at hg
      | [a, b, d] => simp [is22MEZO] at hg
      | [a, b, d, e] => simp [is22MEZO] at hg
      | a :: b :: d :: e :: f :: rest =>
        rw [show sub22MEZO (c :: a :: b :: d :: e :: f :: rest) =
          if is22MEZO (c :: a :: b :: d :: e :: f :: rest) = true then
            '2' :: '2' :: 'M' :: 'E' :: '2' :: 'O' :: sub22MEZO rest
          else c :: sub22MEZO (a :: b :: d :: e :: f :: rest) from rfl, if_pos hg]
        simp
    · rw [sub22MEZO_cons c cs (by simpa using hg)]
      rcases List.mem_cons.mp h with rfl | hcs
      · simp
      · simp [ih hcs]

theorem normCode_mem_two {c : Cell} (h : c.take 2 = ['2', '2']) :
    '2' ∈ normCode c := by
  have h2 : '2' ∈ c := List.mem_of_mem_take (by rw [h]; simp)
  have hup : '2' ∈ c.map upC := List.mem_map.mpr ⟨'2', h2, by decide⟩
  have hcst := sub22CST_mem_two hup
  have hmezo := sub22MEZO_mem_two hcst
  exact List.mem_filter.mpr ⟨hmezo, by decide⟩

theorem scanCodes_two_aux : ∀ (n : Nat) (cells : List Cell), cells.length ≤ n →
    ∀ (acc : List Cell), (∀ x ∈ acc, '2' ∈ x) →
    ∀ c ∈ scanCodes cells acc, '2' ∈ c := by
  intro n
  induction n with
  | zero =>
    intro cells hlen acc hacc c hc
    have hnil : cells = [] := List.eq_nil_of_length_eq_zero (by omega)
    subst hnil
    rw [scanCodes] at hc
    exact hacc c (List.mem_reverse.mp hc)
  | succ n ih =>
    intro cells hlen acc hacc c hc
    cases cells with
    | nil =>
      rw [scanCodes] at hc
      exact hacc c (List.mem_reverse.mp hc)
    | cons cell rest =>
      have hrest : rest.length ≤ n := by
        simp only [List.length_cons] at hlen; omega
      simp only [scanCodes] at hc
      split at hc
      · exact ih rest hrest acc hacc c hc
      · split at hc
        case isTrue hacceptB =>
          have hcode : '2' ∈ normCode (stripList cell) :=
            normCode_mem_two (acceptsCode_take2 hacceptB)
          have hacc2 : ∀ x ∈ (if acc.head? = some (normCode (stripList cell))
              then acc else normCode (stripList cell) :: acc), '2' ∈ x := by
            intro x hx
            split at hx
            · exact hacc x hx
            · rcases List.mem_cons.mp hx with rfl | hxa
              · exact hcode
              · exact hacc x hxa
          rcases rest with _ | ⟨r1, _ | ⟨r2, _ | ⟨r3, tail⟩⟩⟩
          · exact hacc2 c (List.mem_reverse.mp hc)
          · exact hacc2 c (List.mem_reverse.mp hc)
          · exact hacc2 c (List.mem_reverse.mp hc)
          · exact ih tail (by simp only [List.length_cons] at hrest; omega) _ hacc2 c hc
        case isFalse =>
          exact ih rest hrest acc hacc c hc

theorem extract_codes_two {hd : Row} {c : Cell}
    (hc : c ∈ extract_subject_codes hd) : '2' ∈ c :=
  scanCodes_two_aux (hd.drop 3).length (hd.drop 3) le_rfl [] (by simp) c hc

theorem aliasFor_ne_nil {c : Cell} (h : c ≠ []) : aliasFor c = [] → False := by
  unfold aliasFor
  cases htbl : aliasTbl c with
  | some v =>
    have hv : v ≠ [] := by
      unfold aliasTbl at htbl
      repeat' split at htbl
      all_goals simp_all
      all_goals intro habs
      all_goals simp_all
    simpa using hv
  | none =>
    simp only [Option.getD_some, Option.getD_none]
    intro habs
    rcases List.take_eq_nil_iff.mp habs with h4 | hB
    · exact absurd h4 (by omega)
    · exact h hB

/-! ## Presence and defaulting of score fields -/

theorem blockKeys_lookup_self {s : Cell} (hs : s ∈ sfxList)
    (x : Cell) (row : Row) (i : Nat) :
    ∃ v, lookupLast (x ++ s) (blockKeys x row i) = some v := by
  simp only [sfxList, List.mem_cons, List.not_mem_nil, or_false] at hs
  rcases hs with rfl | rfl | rfl | rfl
  · exact ⟨_, blockKeys_lookup_cie x row i⟩
  · exact ⟨_, blockKeys_lookup_see x row i⟩
  · exact ⟨_, blockKeys_lookup_tot x row i⟩
  · exact ⟨_, blockKeys_lookup_grd x row i⟩

theorem emptyBlockKeys_lookup_self {s : Cell} (hs : s ∈ sfxList) (x : Cell) :
    lookupLast (x ++ s) (emptyBlockKeys x) = some [] := by
  have he : emptyBlockKeys x = blockKeys x [] 0 := rfl
  simp only [sfxList, List.mem_cons, List.not_mem_nil, or_false] at hs
  rcases hs with rfl | rfl | rfl | rfl
  · rw [he, blockKeys_lookup_cie]; rfl
  · rw [he, blockKeys_lookup_see]; rfl
  · rw [he, blockKeys_lookup_tot]; rfl
  · rw [he, blockKeys_lookup_grd]; rfl

theorem lookupLast_all_nil {k : Cell} :
    ∀ {l : List (Cell × Cell)}, (∀ p ∈ l, p.2 = []) →
      lookupLast k l = none ∨ lookupLast k l = some [] := by
  intro l
  induction l with
  | nil => intro _; exact Or.inl rfl
  | cons p rest ih =>
    intro h
    rw [lookupLast]
    rcases ih (fun q hq => h q (by simp [hq])) with hr | hr <;> rw [hr]
    · show (if p.1 = k then some p.2 else none) = none ∨
        (if p.1 = k then some p.2 else none) = some []
      split
      · right
        rw [h p (by simp)]
      · exact Or.inl rfl
    · show some ([] : Cell) = none ∨ some ([] : Cell) = some []
      exact Or.inr rfl

theorem emptyBlockKeys_lookup_cases (k x : Cell) :
    lookupLast k (emptyBlockKeys x) = none ∨
    lookupLast k (emptyBlockKeys x) = some [] := by
  apply lookupLast_all_nil
  intro p hp
  obtain ⟨s, _, _, h2⟩ := emptyBlockKeys_keys hp
  exact h2

theorem lookupLast_none_of_append_left {k : Cell} {xs ys : List (Cell × Cell)}
    (h : lookupLast k (xs ++ ys) = none) : lookupLast k xs = none := by
  rw [lookupLast_append] at h
  cases hys : lookupLast k ys with
  | none => rwa [hys] at h
  | some v => rw [hys] at h; exact absurd h (by simp)

theorem buildScores_key_present :
    ∀ {cs : List Cell} {i : Nat} {row : Row} {c s : Cell},
      c ∈ cs → s ∈ sfxList →
      lookupLast (c ++ s) (buildScores cs i row) ≠ none := by
  intro cs
  induction cs with
  | nil => intro i row c s hc _; simp at hc
  | cons c0 cs ih =>
    intro i row c s hc hs
    rw [buildScores]
    split
    · rw [lookupLast_append]
      cases hr : lookupLast (c ++ s) (buildScores cs (i + 4) row) with
      | some v => simp
      | none =>
        rcases List.mem_cons.mp hc with rfl | hcs
        · rw [lookupLast_append]
          cases ha : lookupLast (c ++ s)
              (if (aliasFor c).isEmpty = true then []
               else blockKeys (aliasFor c) row i) with
          | some v => simp
          | none =>
            obtain ⟨v, hv⟩ := blockKeys_lookup_self hs c row i
            rw [hv]
            simp
        · exact absurd hr (ih hcs hs)
    · rw [lookupLast_append]
      cases hr : lookupLast (c ++ s) (buildScores cs i row) with
      | some v => simp
      | none =>
        rcases List.mem_cons.mp hc with rfl | hcs
        · rw [emptyBlockKeys_lookup_self hs c]
          simp
        · exact absurd hr (ih hcs hs)

theorem buildScores_absent :
    ∀ {cs : List Cell} {i : Nat} {row : Row} (k : Cell), ¬(i + 3 < row.length) →
      lookupLast k (buildScores cs i row) = none ∨
      lookupLast k (buildScores cs i row) = some [] := by
  intro cs
  induction cs with
  | nil => intro i row k _; left; rfl
  | cons c0 cs ih =>
    intro i row k h
    rw [buildScores, if_neg h, lookupLast_append]
    rcases @ih i row k h with hr | hr <;> rw [hr]
    · exact emptyBlockKeys_lookup_cases k c0
    · right; rfl

theorem buildScores_alias_missing :
    ∀ {cs : List Cell} {i : Nat} {row : Row} {c s : Cell},
      c ∈ cs → s ∈ sfxList → (∀ x ∈ cs, aliasFor x ≠ []) →
      lookupLast (aliasFor c ++ s) (buildScores cs i row) = none →
      lookupLast (c ++ s) (buildScores cs i row) = some [] := by
  intro cs
  induction cs with
  | nil => intro i row c s hc; simp at hc
  | cons c0 cs ih =>
    intro i row c s hc hs hne hnone
    by_cases hp : i + 3 < row.length
    · rw [buildScores, if_pos hp] at hnone ⊢
      rcases List.mem_cons.mp hc with rfl | hcs
      · exfalso
        have haNe : aliasFor c ≠ [] := hne c (by simp)
        obtain ⟨v, hv⟩ := blockKeys_lookup_self hs (aliasFor c) row i
        have h1 := lookupLast_none_of_append_left hnone
        have h2 := lookupLast_none_of_append h1
        rw [if_neg (by simpa [List.isEmpty_iff] using haNe)] at h2
        rw [h2] at hv
        exact absurd hv (by simp)
      · have hrec := ih hcs hs (fun x hx => hne x (by simp [hx]))
          (lookupLast_none_of_append hnone)
        exact lookupLast_append_some hrec
    · rw [buildScores, if_neg hp] at hnone ⊢
      rcases List.mem_cons.mp hc with rfl | hcs
      · rcases @buildScores_absent cs i row (c ++ s) hp with hr | hr
        · rw [lookupLast_append, hr]
          show lookupLast (c ++ s) (emptyBlockKeys c) = some []
          exact emptyBlockKeys_lookup_self hs c
        · rw [lookupLast_append, hr]
      · have hrec := ih hcs hs (fun x hx => hne x (by simp [hx]))
          (lookupLast_none_of_append hnone)
        exact lookupLast_append_some hrec

/-! ## Decode output shape -/

theorem processCsv_ok_shape (g : Grid) (rs : List SRec) (codes : List Cell)
    (h : processCsv g = .ok (rs, codes)) :
    codes = extract_subject_codes (g.getD 1 []) ∧
    rs = renumberFrom 1 (sortRecs (buildRecords codes (g.drop 3) 0)) := by
  unfold processCsv at h
  by_cases h4 : g.length < 4
  · rw [if_pos h4] at h; exact absurd h (by simp)
  rw [if_neg h4] at h
  by_cases hc : extract_subject_codes (g.getD 1 []) = []
  · rw [if_pos hc] at h; exact absurd h (by simp)
  rw [if_neg hc] at h
  by_cases hr : buildRecords (extract_subject_codes (g.getD 1 [])) (g.drop 3) 0 = []
  · rw [if_pos hr] at h; exact absurd h (by simp)
  rw [if_neg hr] at h
  injection h with hpair
  have hcodes : codes = extract_subject_codes (g.getD 1 []) :=
    (congrArg Prod.snd hpair).symm
  refine ⟨hcodes, ?_⟩
  rw [hcodes]
  exact (congrArg Prod.fst hpair).symm

theorem buildRecords_scores (codes : List Cell) :
    ∀ (rows : List Row) (k : Nat) (r : SRec),
      r ∈ buildRecords codes rows k → ∃ row, r.scores = buildScores codes 3 row := by
  intro rows
  induction rows with
  | nil => intro k r h; simp [buildRecords] at h
  | cons row rest ih =>
    intro k r h
    rw [buildRecords] at h
    split at h
    · exact ih k r h
    · split at h
      · rcases List.mem_cons.mp h with rfl | hmem
        · exact ⟨row, rfl⟩
        · exact ih (k + 1) r hmem
      · exact ih k r h

theorem renumber_mem_scores {n : Nat} {l : List SRec} {r : SRec}
    (h : r ∈ renumberFrom n l) : ∃ r0 ∈ l, r0.scores = r.scores := by
  induction l generalizing n with
  | nil => simp [renumberFrom] at h
  | cons x xs ih =>
    rw [renumberFrom] at h
    rcases List.mem_cons.mp h with rfl | hmem
    · exact ⟨x, by simp, rfl⟩
    · obtain ⟨r0, hr0, hsc⟩ := ih hmem
      exact ⟨r0, by simp [hr0], hsc⟩

/-! ## Claim C1: rectangularity amended -/

/-- Claim C1 (corrected): in every emitted record, every discovered
subject contributes all four canonical-key score fields (empty-string
defaults when the row was too short); the matching alias-key fields are
also stored whenever the row holds the full block, so an absent alias
field can only arise from a short row, in which case the canonical
fields defaulted to the empty string. -/
theorem claim1_amended (g : Grid) (rs : List SRec) (codes : List Cell)
    (h : processCsv g = .ok (rs, codes)) :
    ∀ r ∈ rs, ∀ c ∈ codes, ∀ s ∈ sfxList,
      lookupLast (c ++ s) r.scores ≠ none ∧
      (lookupLast (aliasFor c ++ s) r.scores = none →
        lookupLast (c ++ s) r.scores = some []) := by
  obtain ⟨hcodes, hrs⟩ := processCsv_ok_shape g rs codes h
  intro r hr c hc s hs
  obtain ⟨r1, hr1, hscores⟩ := renumber_mem_scores (hrs ▸ hr)
  have hr2 : r1 ∈ buildRecords codes (g.drop 3) 0 := (sortRecs_perm _).mem_iff.mp hr1
  obtain ⟨row, hrow⟩ := buildRecords_scores codes _ _ _ hr2
  have hALL : ∀ x ∈ codes, aliasFor x ≠ [] := by
    intro x hx habs
    have h2 := extract_codes_two (hcodes ▸ hx)
    have hxne : x ≠ [] := by rintro rfl; simp at h2
    exact aliasFor_ne_nil hxne habs
  rw [← hscores, hrow]
  exact ⟨buildScores_key_present hc hs, buildScores_alias_missing hc hs hALL⟩

/-- Witness for claim C1 at the first record of the `c8grid` decode. -/
theorem claim1_witness :
    lookupLast ("22BBBBBB".data ++ kCIE)
      ((c8out.1.getD 0 ⟨0, 0, [], [], []⟩).scores) ≠ none ∧
    (lookupLast (aliasFor "22BBBBBB".data ++ kCIE)
        ((c8out.1.getD 0 ⟨0, 0, [], [], []⟩).scores) = none →
      lookupLast ("22BBBBBB".data ++ kCIE)
        ((c8out.1.getD 0 ⟨0, 0, [], [], []⟩).scores) = some []) :=
  claim1_amended c8grid c8out.1 c8out.2 (by rfl)
    (c8out.1.getD 0 ⟨0, 0, [], [], []⟩) (by decide)
    "22BBBBBB".data (by decide) kCIE (by decide)

/-! ## Stripping and substitution infrastructure for idempotence -/

theorem dropWhile_map (f : Char → Char) (p : Char → Bool) (l : List Char) :
    (l.map f).dropWhile p = (l.dropWhile fun c => p (f c)).map f := by
  induction l with
  | nil => rfl
  | cons c cs ih =>
    simp only [List.map_cons, List.dropWhile_cons]
    split <;> simp_all

theorem stripList_map {f : Char → Char}
    (hf : ∀ c, isSpaceCh (f c) = isSpaceCh c) (l : List Char) :
    stripList (l.map f) = (stripList l).map f := by
  have hp : (fun c => isSpaceCh (f c)) = isSpaceCh := funext hf
  unfold stripList
  rw [dropWhile_map, hp, ← List.map_reverse, dropWhile_map, hp, ← List.map_reverse]

theorem dropWhile_idem (p : Char → Bool) (l : List Char) :
    List.dropWhile p (List.dropWhile p l) = List.dropWhile p l := by
  induction l with
  | nil => rfl
  | cons c cs ih =>
    rw [List.dropWhile_cons]
    split
    · exact ih
    · rw [List.dropWhile_cons]
      split <;> simp_all

theorem dropWhile_head_false {p : Char → Bool} :
    ∀ {l : List Char} {c : Char}, (List.dropWhile p l).head? = some c → p c = false
  | [], c, h => by simp [List.dropWhile] at h
  | x :: xs, c, h => by
    rw [List.dropWhile_cons] at h
    split at h
    · exact dropWhile_head_false h
    · simp only [List.head?_cons, Option.some.injEq] at h
      subst h
      simp_all

theorem dropWhile_ne_nil_getLast {p : Char → Bool} :
    ∀ {l : List Char}, List.dropWhile p l ≠ [] →
      (List.dropWhile p l).getLast? = l.getLast?
  | [], h => by simp [List.dropWhile] at h
  | x :: xs, h => by
    rw [List.dropWhile_cons] at h ⊢
    split
    · rename_i hx
      have hxs : List.dropWhile p xs ≠ [] := by
        intro habs
        rw [if_pos hx, habs] at h
        exact h rfl
      rw [dropWhile_ne_nil_getLast hxs]
      cases hxsnil : xs with
      | nil => rw [hxsnil] at hxs; simp [List.dropWhile] at hxs
      | cons y ys => simp
    · rfl

theorem dropWhile_eq_self_of_head {p : Char → Bool} {l : List Char}
    (h : ∀ c, l.head? = some c → p c = false) : List.dropWhile p l = l := by
  cases l with
  | nil => rfl
  | cons c cs => rw [List.dropWhile_cons, if_neg (by simp [h c rfl])]

theorem stripList_idem (l : List Char) : stripList (stripList l) = stripList l := by
  unfold stripList
  set M := List.dropWhile isSpaceCh l with hM
  set Z := List.dropWhile isSpaceCh M.reverse with hZ
  have hY : List.dropWhile isSpaceCh Z.reverse = Z.reverse := by
    apply dropWhile_eq_self_of_head
    intro c hc
    by_cases hZnil : Z = []
    · rw [hZnil] at hc; simp at hc
    · rw [List.head?_reverse] at hc
      have hgl : Z.getLast? = M.reverse.getLast? := dropWhile_ne_nil_getLast hZnil
      rw [hgl, List.getLast?_reverse] at hc
      exact dropWhile_head_false (hM ▸ hc)
  rw [hY, List.reverse_reverse, dropWhile_idem]

theorem alwaysFix_space (c : Char) : isSpaceCh (alwaysFix c) = isSpaceCh c := by
  unfold alwaysFix
  repeat' split
  all_goals simp_all
  all_goals decide

theorem strip_map_alwaysFix (s : List Char) :
    stripList ((stripList s).map alwaysFix) = (stripList s).map alwaysFix := by
  rw [stripList_map alwaysFix_space, stripList_idem]

theorem stripList_subset {c : Char} {l : List Char} (h : c ∈ stripList l) : c ∈ l := by
  unfold stripList at h
  rw [List.mem_reverse] at h
  have h2 := (List.dropWhile_sublist _).subset h
  rw [List.mem_reverse] at h2
  exact (List.dropWhile_sublist _).subset h2

theorem replaceCh_mem_strong {a b x : Char} {l : List Char}
    (h : x ∈ replaceCh a b l) : x = b ∨ (x ∈ l ∧ x ≠ a) := by
  unfold replaceCh at h
  obtain ⟨c, hc, hcx⟩ := List.mem_map.mp h
  by_cases hca : (c == a) = true
  · rw [if_pos hca] at hcx; exact Or.inl hcx.symm
  · rw [if_neg hca] at hcx
    subst hcx
    exact Or.inr ⟨hc, by simpa using hca⟩

theorem replaceCh_not_mem {a b : Char} (hab : a ≠ b) (l : List Char) :
    a ∉ replaceCh a b l := by
  intro h
  rcases replaceCh_mem_strong h with h1 | ⟨_, h2⟩
  · exact hab h1
  · exact h2 rfl

theorem alwaysFix_ne_keys {c : Char} (h1 : c ≠ '€') (h2 : c ≠ 'Ⓒ') (h3 : c ≠ '©')
    (h4 : c ≠ '‘') (h5 : c ≠ '’') (h6 : c ≠ '“') (h7 : c ≠ '”') : alwaysFix c = c := by
  simp [alwaysFix, h1, h2, h3, h4, h5, h6, h7]

/-! ## Fixed points of the corrector -/

theorem usnSubst_chars {x : Char} {t : List Char} (h : x ∈ usnSubst t) :
    x ∈ (['0', '1', '8', '2', '5'] : List Char) ∨
      (x ∈ t ∧ x ≠ 'O' ∧ x ≠ 'I' ∧ x ≠ 'l' ∧ x ≠ 'B' ∧ x ≠ 'Z' ∧ x ≠ 'S') := by
  unfold usnSubst at h
  rcases replaceCh_mem_strong h with rfl | ⟨h, hS⟩
  · exact Or.inl (by decide)
  rcases replaceCh_mem_strong h with rfl | ⟨h, hZ⟩
  · exact Or.inl (by decide)
  rcases replaceCh_mem_strong h with rfl | ⟨h, hB⟩
  · exact Or.inl (by decide)
  rcases replaceCh_mem_strong h with rfl | ⟨h, hl⟩
  · exact Or.inl (by decide)
  rcases replaceCh_mem_strong h with rfl | ⟨h, hI⟩
  · exact Or.inl (by decide)
  rcases replaceCh_mem_strong h with rfl | ⟨h, hO⟩
  · exact Or.inl (by decide)
  · exact Or.inr ⟨h, hO, hI, hl, hB, hZ, hS⟩

theorem usnBranch_chars {t : List Char} :
    ∀ c ∈ usnBranch t, isAlnumCh c = true ∧
      c ≠ 'O' ∧ c ≠ 'I' ∧ c ≠ 'B' ∧ c ≠ 'Z' ∧ c ≠ 'S' := by
  intro c hc
  unfold usnBranch at hc
  obtain ⟨d, hd, hdc⟩ := List.mem_map.mp hc
  have hdaln : isAlnumCh d = true := List.of_mem_filter hd
  rw [upC_alnum hdaln] at hdc
  subst hdc
  refine ⟨hdaln, ?_⟩
  have hdfix : d ∈ fix1bm (usnSubst t) := List.mem_of_mem_filter hd
  have hnoB : 'B' ∉ usnSubst t := by
    intro habs
    rcases usnSubst_chars habs with h1 | ⟨_, _, _, _, hB, _, _⟩
    · exact absurd h1 (by decide)
    · exact hB rfl
  rw [fix1bm_eq_self hnoB] at hdfix
  rcases usnSubst_chars hdfix with h1 | ⟨_, hO, hI, _, hB, hZ, hS⟩
  · simp only [List.mem_cons, List.not_mem_nil, or_false] at h1
    rcases h1 with rfl | rfl | rfl | rfl | rfl <;>
      exact ⟨by decide, by decide, by decide, by decide, by decide⟩
  · exact ⟨hO, hI, hB, hZ, hS⟩

theorem correct_fixed_A {w : List Char}
    (h : ∀ c ∈ w, isAlnumCh c = true ∧
      c ≠ 'O' ∧ c ≠ 'I' ∧ c ≠ 'B' ∧ c ≠ 'Z' ∧ c ≠ 'S') :
    correct w = w := by
  by_cases hw : w = []
  · subst hw; rfl
  have hnsp : ∀ c ∈ w, isSpaceCh c = false := fun c hc => alnum_not_space (h c hc).1
  have hstrip : stripList w = w := strip_eq_self_of hnsp
  have hfixid : w.map alwaysFix = w := mapSelf fun c hc => by
    apply alwaysFix_ne_keys <;> (rintro rfl; exact absurd (h _ hc).1 (by decide))
  show (if (stripList w).isEmpty = true then []
        else correctCore ((stripList w).map alwaysFix)) = w
  rw [hstrip, hfixid, if_neg (by simp [hw])]
  have hnO : 'O' ∉ w := fun habs => (h _ habs).2.1 rfl
  have hnI : 'I' ∉ w := fun habs => (h _ habs).2.2.1 rfl
  have hnB : 'B' ∉ w := fun habs => (h _ habs).2.2.2.1 rfl
  have hnZ : 'Z' ∉ w := fun habs => (h _ habs).2.2.2.2.1 rfl
  have hnS : 'S' ∉ w := fun habs => (h _ habs).2.2.2.2.2 rfl
  have hnl : 'l' ∉ w := fun habs => absurd (h _ habs).1 (by decide)
  unfold correctCore
  split
  · unfold usnBranch usnSubst
    rw [replaceCh_eq_self hnO, replaceCh_eq_self hnI, replaceCh_eq_self hnl,
      replaceCh_eq_self hnB, replaceCh_eq_self hnZ, replaceCh_eq_self hnS,
      fix1bm_eq_self hnB, List.filter_eq_self.mpr fun c hc => (h c hc).1]
    exact mapSelf fun c hc => upC_alnum (h c hc).1
  · split
    · unfold marksBranch marksSubst
      rw [replaceCh_eq_self hnO, replaceCh_eq_self hnI, replaceCh_eq_self hnl,
        replaceCh_eq_self hnB, replaceCh_eq_self hnS]
      exact removeWs_eq_self hnsp
    · unfold freeTextBranch
      rw [mapSelf fun c hc => by rw [if_pos (alnum_print (h c hc).1)]]
      rw [collapseWs_eq_self hnsp, strip_eq_self_of hnsp]

theorem usnRegexMatch_shape {u : List Char} (h : usnRegexMatch u = true) :
    ∃ c0 c1 rest, u = c0 :: c1 :: rest ∧ (c1 = 'B' ∨ c1 = 'M') := by
  match u with
  | [] => simp [usnRegexMatch] at h
  | [c] => simp [usnRegexMatch] at h
  | c0 :: c1 :: rest =>
    refine ⟨c0, c1, rest, rfl, ?_⟩
    simp only [usnRegexMatch, Bool.and_eq_true, Bool.or_eq_true, beq_iff_eq] at h
    exact h.1.1.1.2

theorem D_not_space {c : Char} (hD : marksOutChar c) : isSpaceCh c = false := by
  rw [Bool.eq_false_iff, Ne, isSpace_iff]
  unfold marksOutChar at hD
  omega

theorem D_print {c : Char} (hD : marksOutChar c) : isPrintCh c = true := by
  rw [isPrint_iff]
  unfold marksOutChar at hD
  omega

theorem correct_fixed_B {w : List Char} (hD : ∀ c ∈ w, marksOutChar c) :
    correct w = w := by
  by_cases hw : w = []
  · subst hw; rfl
  have hnsp : ∀ c ∈ w, isSpaceCh c = false := fun c hc => D_not_space (hD c hc)
  have hstrip : stripList w = w := strip_eq_self_of hnsp
  have hfixid : w.map alwaysFix = w := mapSelf fun c hc => by
    apply alwaysFix_ne_keys <;> (rintro rfl; exact absurd (hD _ hc) (by decide))
  show (if (stripList w).isEmpty = true then []
        else correctCore ((stripList w).map alwaysFix)) = w
  rw [hstrip, hfixid, if_neg (by simp [hw])]
  have husn : is_likely_usn w = false := by
    rw [Bool.eq_false_iff]
    intro habs
    obtain ⟨c0, c1, rest, hu, hc1⟩ := usnRegexMatch_shape habs
    have hc1mem : c1 ∈ trialSubst (stripList (List.map upC w)) := by
      rw [hu]; simp
    unfold trialSubst at hc1mem
    rcases replaceCh_mem_strong hc1mem with h8 | ⟨hm2, hB⟩
    · rcases hc1 with rfl | rfl <;> exact absurd h8 (by decide)
    rcases replaceCh_mem_strong hm2 with h1 | ⟨hm3, _⟩
    · rcases hc1 with rfl | rfl <;> exact absurd h1 (by decide)
    rcases replaceCh_mem_strong hm3 with h0 | ⟨hm4, _⟩
    · rcases hc1 with rfl | rfl <;> exact absurd h0 (by decide)
    have hm5 := stripList_subset hm4
    obtain ⟨d, hdw, hdup⟩ := List.mem_map.mp hm5
    have hDd := hD d hdw
    have hupn := toNat_upC d
    unfold marksOutChar at hDd
    rcases hc1 with rfl | rfl
    · exact hB rfl
    · have h77 : (upC d).toNat = 77 := by rw [hdup]; decide
      by_cases hl : isLowerCh d = true
      · rw [if_pos hl] at hupn
        have := (isLower_iff d).mp hl
        omega
      · rw [if_neg hl] at hupn
        omega
  have hnO : 'O' ∉ w := fun habs => absurd (hD _ habs) (by decide)
  have hnI : 'I' ∉ w := fun habs => absurd (hD _ habs) (by decide)
  have hnl : 'l' ∉ w := fun habs => absurd (hD _ habs) (by decide)
  have hnB : 'B' ∉ w := fun habs => absurd (hD _ habs) (by decide)
  have hnS : 'S' ∉ w := fun habs => absurd (hD _ habs) (by decide)
  unfold correctCore
  rw [if_neg (by simp [husn])]
  split
  · unfold marksBranch marksSubst
    rw [replaceCh_eq_self hnO, replaceCh_eq_self hnI, replaceCh_eq_self hnl,
      replaceCh_eq_self hnB, replaceCh_eq_self hnS]
    exact removeWs_eq_self hnsp
  · unfold freeTextBranch
    rw [mapSelf fun c hc => by rw [if_pos (D_print (hD c hc))]]
    rw [collapseWs_eq_self hnsp, strip_eq_self_of hnsp]

/-! ## Character analysis of the Mark category -/

theorem marksPat_chars {u : List Char} (h : marksPatMatch u = true) :
    ∀ c ∈ u, isDigitCh c = true ∨ ('A' ≤ c ∧ c ≤ 'F') ∨ c = 'P' ∨
      isSpaceCh c = true := by
  unfold marksPatMatch at h
  simp only [Bool.or_eq_true] at h
  rcases h with ((h1 | h2) | h3) | h4
  · simp only [Bool.and_eq_true, List.all_eq_true] at h1
    intro c hc
    exact Or.inl (h1.2 c hc)
  · intro c hc
    cases u with
    | nil => simp at hc
    | cons c0 tail =>
      cases tail with
      | nil =>
        simp only [List.mem_cons, List.not_mem_nil, or_false] at hc
        subst hc
        simp only [Bool.or_eq_true, Bool.and_eq_true, decide_eq_true_eq,
          beq_iff_eq] at h2
        rcases h2 with ⟨ha, hb⟩ | hp
        · exact Or.inr (Or.inl ⟨ha, hb⟩)
        · exact Or.inr (Or.inr (Or.inl hp))
      | cons c1 tail2 => simp at h2
  · have hu : u = ['A', 'B'] := by simpa using h3
    subst hu
    intro c hc
    simp only [List.mem_cons, List.not_mem_nil, or_false] at hc
    rcases hc with rfl | rfl
    · exact Or.inr (Or.inl (by decide))
    · exact Or.inr (Or.inl (by decide))
  · simp only [List.span_eq_take_drop, Bool.and_eq_true] at h4
    obtain ⟨hne, hr3⟩ := h4
    intro c hc
    rw [← List.takeWhile_append_dropWhile (p := isDigitCh) (l := u)] at hc
    rcases List.mem_append.mp hc with hc1 | hc2
    · exact Or.inl (List.mem_takeWhile_imp hc1)
    rw [← List.takeWhile_append_dropWhile (p := isSpaceCh)
      (l := List.dropWhile isDigitCh u)] at hc2
    rcases List.mem_append.mp hc2 with hc3 | hc4
    · exact Or.inr (Or.inr (Or.inr (List.mem_takeWhile_imp hc3)))
    rw [← List.takeWhile_append_dropWhile (p := isDigitCh)
      (l := List.dropWhile isSpaceCh (List.dropWhile isDigitCh u))] at hc4
    rcases List.mem_append.mp hc4 with hc5 | hc6
    · exact Or.inl (List.mem_takeWhile_imp hc5)
    · rw [List.isEmpty_iff.mp hr3] at hc6
      simp at hc6

theorem marks_t_chars {t : List Char} (hm : is_likely_marks t = true)
    (hts : stripList t = t) :
    ∀ c ∈ t, isDigitCh c = true ∨ (65 ≤ c.toNat ∧ c.toNat ≤ 70) ∨
      c.toNat = 80 ∨ (97 ≤ c.toNat ∧ c.toNat ≤ 102) ∨ c.toNat = 112 ∨
      isSpaceCh c = true := by
  unfold is_likely_marks at hm
  rw [hts] at hm
  intro c hc
  have hup : upC c ∈ t.map upC := List.mem_map.mpr ⟨c, hc, rfl⟩
  have hclass := marksPat_chars hm (upC c) hup
  have hupn := toNat_upC c
  rw [isDigit_iff, isSpace_iff]
  have harith : (48 ≤ (upC c).toNat ∧ (upC c).toNat ≤ 57) ∨
      (65 ≤ (upC c).toNat ∧ (upC c).toNat ≤ 70) ∨ (upC c).toNat = 80 ∨
      ((upC c).toNat = 32 ∨ (upC c).toNat = 9 ∨ (upC c).toNat = 10 ∨
       (upC c).toNat = 13 ∨ (upC c).toNat = 11 ∨ (upC c).toNat = 12) := by
    rcases hclass with h1 | ⟨h2a, h2b⟩ | h3 | h4
    · rw [isDigit_iff] at h1
      exact Or.inl h1
    · rw [charLe_iff] at h2a h2b
      rw [(by decide : ('A').toNat = 65)] at h2a
      rw [(by decide : ('F').toNat = 70)] at h2b
      exact Or.inr (Or.inl ⟨h2a, h2b⟩)
    · exact Or.inr (Or.inr (Or.inl (by rw [h3]; decide)))
    · rw [isSpace_iff] at h4
      exact Or.inr (Or.inr (Or.inr h4))
  by_cases hl : isLowerCh c = true
  · rw [if_pos hl] at hupn
    have hln := (isLower_iff c).mp hl
    omega
  · rw [if_neg hl] at hupn
    rw [isLower_iff] at hl
    omega

theorem marksBranch_chars {t : List Char} (hm : is_likely_marks t = true)
    (hts : stripList t = t) : ∀ c ∈ marksBranch t, marksOutChar c := by
  have htc := marks_t_chars hm hts
  intro c hc
  unfold marksBranch removeWs at hc
  obtain ⟨hcm, hcsp⟩ := List.mem_filter.mp hc
  have hcs : isSpaceCh c = false := by simpa using hcsp
  unfold marksSubst at hcm
  rcases replaceCh_mem_strong hcm with rfl | ⟨hcm, hS⟩
  · decide
  rcases replaceCh_mem_strong hcm with rfl | ⟨hcm, hB⟩
  · decide
  rcases replaceCh_mem_strong hcm with rfl | ⟨hcm, _⟩
  · decide
  rcases replaceCh_mem_strong hcm with rfl | ⟨hcm, _⟩
  · decide
  rcases replaceCh_mem_strong hcm with rfl | ⟨hcm, _⟩
  · decide
  have hBn : c.toNat ≠ 66 := by
    intro habs
    exact hB ((charEq_iff c 'B').mpr (by rw [habs]; decide))
  unfold marksOutChar
  rcases htc c hcm with h1 | h2 | h3 | h4 | h5 | h6
  · rw [isDigit_iff] at h1
    omega
  · omega
  · omega
  · omega
  · omega
  · rw [h6] at hcs
    exact absurd hcs (by decide)

/-! ## Claim C3: idempotence of the corrector -/

/-- Claim C3 (corrected): the corrector is idempotent on every cell it
classifies as Identifier or Mark; a FreeText-category cell can violate
idempotence when stripping non-printable characters yields a string that
reclassifies (see the counterexample). -/
theorem claim3_amended (s : List Char)
    (h : is_likely_usn ((stripList s).map alwaysFix) = true ∨
         is_likely_marks ((stripList s).map alwaysFix) = true) :
    correct (correct s) = correct s := by
  by_cases hnil : (stripList s).isEmpty = true
  · exfalso
    have h0 : stripList s = [] := List.isEmpty_iff.mp hnil
    rw [h0] at h
    rcases h with h | h <;> exact absurd h (by decide)
  · have hcor : correct s = correctCore ((stripList s).map alwaysFix) := by
      show (if (stripList s).isEmpty = true then []
            else correctCore ((stripList s).map alwaysFix)) = _
      rw [if_neg hnil]
    have hstript := strip_map_alwaysFix s
    by_cases hu : is_likely_usn ((stripList s).map alwaysFix) = true
    · rw [hcor]
      unfold correctCore
      rw [if_pos hu]
      exact correct_fixed_A usnBranch_chars
    · have hm : is_likely_marks ((stripList s).map alwaysFix) = true :=
        h.resolve_left hu
      rw [hcor]
      unfold correctCore
      rw [if_neg hu, if_pos hm]
      exact correct_fixed_B (marksBranch_chars hm hstript)

/-- Counterexample to claim C3 as stated: a FreeText cell whose output
reclassifies as an Identifier and is transformed again on the second
pass. -/
theorem claim3_cex :
    correct (correct ('«' :: "1M021CS001".data)) ≠
      correct ('«' :: "1M021CS001".data) := by
  decide

/-- Witness for claim C3 on a Mark-category cell. -/
theorem claim3_witness : correct (correct "105".data) = correct "105".data :=
  claim3_amended "105".data (Or.inr (by rfl))

end Marksheet

